import Mathlib

/-!
# ProcForest: verification of the process-tree aggregation engine

Shallow embedding of the ProcForest repository (`main.py` and
`src/process_parser.py`).  Python dictionaries are modelled as association
lists (Python dicts preserve insertion order, and `dict[k] = v` overwrites in
place), real-valued memory fractions as rationals, and Python's `round(x, 2)`
as exact rounding to centiunits (Python rounds binary floats half-to-even;
both roundings satisfy the distance and monotonicity facts used here).
Functions whose Python originals can fail (KeyError / IndexError) or recurse
unboundedly return `Option`, with `none` for "no value was produced"; fuel
arguments stand for the call stack, and fuel-sufficiency is proved where the
Python code terminates.
-/

namespace ProcForest

/-- First-match lookup in an association list: the model of `d[k]` /
`d.get(k)` for a Python dict represented in insertion order. -/
def lookupA {α : Type} : List (Nat × α) → Nat → Option α
  | [], _ => none
  | (k, v) :: rest, key => if k = key then some v else lookupA rest key

/-- The key list of an association list, in insertion order: the model of
iterating over a Python dict. -/
def keysA {α : Type} (l : List (Nat × α)) : List Nat :=
  l.map Prod.fst

/-- The model of `d[k] = v` on a Python dict: overwrite in place if the key
exists, else append at the end (insertion order). -/
def dictSet {α : Type} (l : List (Nat × α)) (k : Nat) (v : α) : List (Nat × α) :=
  if k ∈ keysA l then l.map (fun p => if p.1 = k then (k, v) else p)
  else l ++ [(k, v)]

/-- The model of `children_map.setdefault(ppid, []).append(pid)`. -/
def cmapAdd (m : List (Nat × List Nat)) (ppid pid : Nat) : List (Nat × List Nat) :=
  if ppid ∈ keysA m then m.map (fun p => if p.1 = ppid then (p.1, p.2 ++ [pid]) else p)
  else m ++ [(ppid, [pid])]

/-- The model of Python's `round(q, 2)`: round to an integer number of
hundredths (`round2_eq_round` relates this computable form to Mathlib's
`round`; Python rounds binary floats half-to-even, which differs from this
only on exact half-hundredths and satisfies the same distance and
monotonicity facts used below). -/
def round2 (q : ℚ) : ℚ :=
  (Rat.floor (q * 100 + 1 / 2) : ℚ) / 100

/-- One normalized process record, the model of the per-pid dict built by
`list_process` (the derived `memory_total` field is carried separately as the
memo produced by aggregation). -/
structure ProcRec where
  pid : Nat
  ppid : Nat
  name : String
  username : String
  memory : ℚ
  deriving Repr, DecidableEq

/-- One raw observation yielded by `psutil.process_iter`: the attribute
fields, plus a flag recording whether reading the attributes of this process
raises `NoSuchProcess`/`AccessDenied` during the scan. -/
structure RawProc where
  pid : Nat
  ppid : Nat
  name : Option String
  username : Option String
  memory : ℚ
  fails : Bool
  deriving Repr, DecidableEq

/-- Python's `s.split(sep)` for a one-character separator, on the character
list of the string: no run collapsing, a leading/trailing separator yields
an empty component, and the empty string yields `[[]]`. -/
def splitOnSep (sep : Char) : List Char → List (List Char)
  | [] => [[]]
  | c :: cs =>
    match splitOnSep sep cs with
    | [] => if c = sep then [[], []] else [[c]]
    | g :: gs => if c = sep then [] :: g :: gs else (c :: g) :: gs

/-- `(info["username"] or "unknown").split("\\")[-1]`: a missing or empty
owner becomes the sentinel, then the last backslash-separated component is
kept (the Python literal `"\\"` is the single backslash character). -/
def normalizeUser (username : Option String) : String :=
  let u := match username with
    | none => "unknown"
    | some s => if s = "" then "unknown" else s
  String.mk ((splitOnSep '\x5c' u.data).getLastD [])

/-- Normalization of one successfully-read raw observation into the record
stored in `processes` (`proc_name = info["name"] or ""`, owner normalized,
`round(proc.memory_percent(), 2)`). -/
def normalizeRaw (r : RawProc) : ProcRec :=
  { pid := r.pid
    ppid := r.ppid
    name := r.name.getD ""
    username := normalizeUser r.username
    memory := round2 r.memory }

/-- The scan loop of `list_process`: walk the raw snapshot in order; a
process whose attribute reads fail is skipped entirely (its record is never
assigned and its pid is never appended to the children map), any other
process is stored and indexed under its parent pid. -/
def scanStep (acc : List (Nat × ProcRec) × List (Nat × List Nat)) (r : RawProc) :
    List (Nat × ProcRec) × List (Nat × List Nat) :=
  if r.fails then acc
  else (dictSet acc.1 r.pid (normalizeRaw r), cmapAdd acc.2 r.ppid r.pid)

/-- continuing: the whole scan is the fold of `scanStep` from empty maps. -/
def buildMaps (raw : List RawProc) : List (Nat × ProcRec) × List (Nat × List Nat) :=
  raw.foldl scanStep ([], [])

/-- The `for child_pid in children_map.get(pid, [])` loop of
`compute_memory_with_children`, parameterized by `recur`, the recursive call
one stack frame deeper: children are processed left to right, a child pid
absent from `processes` is skipped, and the contributions are summed while
the memo is threaded through. -/
def childLoop (procs : List (Nat × ProcRec))
    (recur : Nat → List (Nat × ℚ) → List Nat → Option (ℚ × List (Nat × ℚ))) :
    List Nat → List (Nat × ℚ) → List Nat → Option (ℚ × List (Nat × ℚ))
  | [], memo, _ => some (0, memo)
  | c :: cs, memo, visited =>
    if (lookupA procs c).isSome then
      match recur c memo visited with
      | none => none
      | some (v, memo1) =>
        match childLoop procs recur cs memo1 visited with
        | none => none
        | some (s, memo2) => some (v + s, memo2)
    else childLoop procs recur cs memo visited

/-- The body of `compute_memory_with_children(pid, processes, children_map,
memo, visited)`, parameterized by `recur`, the recursive call one stack
frame deeper: memo hit first, then the on-stack cycle check returning `0`,
then `processes[pid]` (a miss is the Python `KeyError`, modelled `none`),
the child loop, and finally `memo[pid] = round(total, 2)`. -/
def computeStep (procs : List (Nat × ProcRec)) (cmap : List (Nat × List Nat))
    (recur : Nat → List (Nat × ℚ) → List Nat → Option (ℚ × List (Nat × ℚ)))
    (pid : Nat) (memo : List (Nat × ℚ)) (visited : List Nat) :
    Option (ℚ × List (Nat × ℚ)) :=
  match lookupA memo pid with
  | some v => some (v, memo)
  | none =>
    if pid ∈ visited then some (0, memo)
    else
      match lookupA procs pid with
      | none => none
      | some rec0 =>
        match childLoop procs recur ((lookupA cmap pid).getD []) memo (pid :: visited) with
        | none => none
        | some (s, memo1) =>
          let r := round2 (rec0.memory + s)
          some (r, (pid, r) :: memo1)

/-- `compute_memory_with_children(pid, processes, children_map, memo,
visited)`.  The shared mutable `memo` dict is threaded explicitly; the
shared `visited` set is passed as a plain parameter because every completed
call removes exactly the pid it added, so a call's net effect on `visited`
is nil.  The first `Nat` argument is fuel standing for the Python call
stack; `none` means the Python call would not return at this depth (which
never happens for sufficient fuel, see `compute_memory_succeeds`). -/
def compute_memory_with_children (procs : List (Nat × ProcRec))
    (cmap : List (Nat × List Nat)) :
    Nat → Nat → List (Nat × ℚ) → List Nat → Option (ℚ × List (Nat × ℚ))
  | 0 => fun _ _ _ => none
  | fuel + 1 => computeStep procs cmap (compute_memory_with_children procs cmap fuel)

/-- The aggregation loop of `list_process`: `for pid in processes:` run the
aggregator with the shared memo and an empty visited set.  The fuel
`procs.length + 1` is sufficient (`compute_memory_succeeds`), so the `none`
branch — which would be a crash of the Python program — is never taken on
pids of the snapshot.  `aggStep` is one loop iteration, `aggregateAll` the
fold over the snapshot's pids in insertion order. -/
def aggStep (procs : List (Nat × ProcRec)) (cmap : List (Nat × List Nat))
    (memo : List (Nat × ℚ)) (pid : Nat) : List (Nat × ℚ) :=
  match compute_memory_with_children procs cmap (procs.length + 1) pid memo [] with
  | some (_, m) => m
  | none => memo

/-- The memo resulting from the whole `for pid in processes:` loop. -/
def aggregateAll (procs : List (Nat × ProcRec)) (cmap : List (Nat × List Nat)) :
    List (Nat × ℚ) :=
  (keysA procs).foldl (aggStep procs cmap) []

/-- `list_process()` (no filter, the path taken by the app): scan the raw
snapshot into the processes mapping and children index, then aggregate every
pid's total.  The Python code stores each total into the record's
`memory_total` key; here the memo holding exactly those totals is returned
alongside. -/
def list_process (raw : List RawProc) :
    List (Nat × ProcRec) × List (Nat × List Nat) × List (Nat × ℚ) :=
  let m := buildMaps raw
  (m.1, m.2, aggregateAll m.1 m.2)

/-! ## View building (`main.py`) -/

/-- The sort modes stored in `self.sort_by` (`"pid"`, `"alphabet"`,
`"owner"`, `"memory"`). -/
inductive SortBy where
  | pid
  | alphabet
  | owner
  | memory
  deriving Repr, DecidableEq

/-- Codepoint sequence of the lowercased string: the value Python compares
when the sorter returns `proc["name"].lower()` (string comparison is
lexicographic on code points; lowering is modelled on the ASCII range the
process names and owners use). -/
def lowerKey (s : String) : List Nat :=
  s.data.map (fun c =>
    let n := c.toNat
    if 65 ≤ n ∧ n ≤ 90 then n + 32 else n)

/-- Lexicographic strict order on codepoint sequences: the model of Python's
`<` on strings. -/
def lexLt : List Nat → List Nat → Bool
  | [], [] => false
  | [], _ :: _ => true
  | _ :: _, [] => false
  | a :: as, b :: bs => if a < b then true else if b < a then false else lexLt as bs

/-- The record consulted by the sorter and the tree labels; the `.getD`
default is never consulted on the pids the app actually sorts (they are keys
of `processes`). -/
def recOf (procs : List (Nat × ProcRec)) (p : Nat) : ProcRec :=
  (lookupA procs p).getD { pid := 0, ppid := 0, name := "", username := "", memory := 0 }

/-- `proc.get("memory_total", 0)`: the aggregated total stored for the pid,
read from the memo that models the `memory_total` fields. -/
def totalOf (totals : List (Nat × ℚ)) (p : Nat) : ℚ :=
  (lookupA totals p).getD 0

/-- The strict "comes strictly before" relation induced by the sorter
closures in `load_tree` / `add_children_recursive` together with
`reverse = (sort_by == "memory")`: ascending pid, ascending lowercased name,
ascending lowercased owner, or descending memory total.  Python's `sorted`
is stable, so ties (both directions `false`) keep encounter order. -/
def viewLt (mode : SortBy) (procs : List (Nat × ProcRec)) (totals : List (Nat × ℚ))
    (p q : Nat) : Bool :=
  match mode with
  | .pid => (recOf procs p).pid < (recOf procs q).pid
  | .alphabet => lexLt (lowerKey (recOf procs p).name) (lowerKey (recOf procs q).name)
  | .owner => lexLt (lowerKey (recOf procs p).username) (lowerKey (recOf procs q).username)
  | .memory => totalOf totals q < totalOf totals p

/-- Insert `x` into an already-sorted list, after every element it does not
strictly precede. -/
def insertBy (lt : Nat → Nat → Bool) (x : Nat) : List Nat → List Nat
  | [] => [x]
  | y :: ys => if lt x y then x :: y :: ys else y :: insertBy lt x ys

/-- Stable sort by a strict comparison, processing the input left to right:
the model of Python's stable `sorted(..., key=sorter, reverse=...)` (ties
are left in encounter order, which insertion-after-ties preserves). -/
def sortedBy (lt : Nat → Nat → Bool) (l : List Nat) : List Nat :=
  l.foldl (fun acc x => insertBy lt x acc) []

/-- The sibling sorter shared by the root level and every child list in
`main.py` (the source duplicates the identical closure in `load_tree` and
`add_children_recursive`). -/
def sortSiblings (mode : SortBy) (procs : List (Nat × ProcRec))
    (totals : List (Nat × ℚ)) (l : List Nat) : List Nat :=
  sortedBy (viewLt mode procs totals) l

/-- `root_pids = [pid for pid in processes if processes[pid]["ppid"] not in processes]`. -/
def rootPids (procs : List (Nat × ProcRec)) : List Nat :=
  (keysA procs).filter (fun pid => !((keysA procs).contains (recOf procs pid).ppid))

/-- The per-sibling loop shared by `load_tree` (over sorted roots) and
`add_children_recursive` (over sorted children), parameterized by `subtree`,
the recursive subtree builder: look the pid up in `processes` (a miss is the
Python `KeyError`, modelled `none`), emit its row, then its subtree, then
the remaining siblings. -/
def emitRows (procs : List (Nat × ProcRec)) (subtree : Nat → Option (List Nat)) :
    List Nat → Option (List Nat)
  | [] => some []
  | c :: cs =>
    match lookupA procs c with
    | none => none
    | some _ =>
      match subtree c with
      | none => none
      | some sub =>
        match emitRows procs subtree cs with
        | none => none
        | some rest => some (c :: (sub ++ rest))

/-- `add_children_recursive(node, pid, processes, children_map)`, flattened
to the preorder pid sequence it adds below `pid`.  The `Nat` argument is
call-stack fuel; `none` means the Python call would not return at this depth
(or would raise `KeyError` on a child pid missing from `processes`). -/
def add_children_recursive (procs : List (Nat × ProcRec))
    (cmap : List (Nat × List Nat)) (mode : SortBy) (totals : List (Nat × ℚ)) :
    Nat → Nat → Option (List Nat)
  | 0 => fun _ => none
  | fuel + 1 => fun pid =>
    match lookupA cmap pid with
    | none => some []
    | some childPids =>
      emitRows procs (add_children_recursive procs cmap mode totals fuel)
        (sortSiblings mode procs totals childPids)

/-- `load_tree` after `list_process` has produced its data: the preorder pid
sequence of the displayed forest (each listed pid's record is rendered by
`format_proc`). -/
def loadTreeRows (procs : List (Nat × ProcRec)) (cmap : List (Nat × List Nat))
    (mode : SortBy) (totals : List (Nat × ℚ)) (fuel : Nat) : Option (List Nat) :=
  emitRows procs (add_children_recursive procs cmap mode totals fuel)
    (sortSiblings mode procs totals (rootPids procs))

/-- `load_tree(self)`: clear the tree, call `list_process()` on the current
raw OS snapshot, compute the roots, and build the sorted forest. -/
def load_tree (mode : SortBy) (raw : List RawProc) : Option (List Nat) :=
  let d := list_process raw
  loadTreeRows d.1 d.2.1 mode d.2.2 (d.1.length + 1)

/-- The `match selected:` dispatch in `on_option_list_option_selected`: an
unrecognized prompt leaves `sort_by` unchanged. -/
def modeOfPrompt (prompt : String) (cur : SortBy) : SortBy :=
  if prompt = "По Алфавиту" then .alphabet
  else if prompt = "По PID" then .pid
  else if prompt = "По Владельцу" then .owner
  else if prompt = "По Памяти" then .memory
  else cur

/-- `on_option_list_option_selected`: set the new sort key, then call
`load_tree`, which samples a fresh OS snapshot (`freshRaw`) via
`list_process`.  Returns the new key and the rebuilt forest. -/
def on_option_list_option_selected (cur : SortBy) (prompt : String)
    (freshRaw : List RawProc) : SortBy × Option (List Nat) :=
  let newMode := modeOfPrompt prompt cur
  (newMode, load_tree newMode freshRaw)

/-! ## Ancestor chain walk (`get_parent_tree`) -/

/-- What the OS answers when `get_parent_tree` queries a process's parent:
no parent at all, a raised `NoSuchProcess`/`AccessDenied` while reading the
parent's attributes, or the parent's pid, name and memory fraction. -/
inductive ParentQuery where
  | noParent
  | fails
  | parentIs (pid : Nat) (name : String) (memory : ℚ)
  deriving Repr, DecidableEq

/-- The nested `{"ppid": ..., "name": ..., "ppids": ..., "memory": ...}`
dictionaries returned by `get_parent_tree` (`empty` is the `{}` returned at
a root or on a caught exception). -/
inductive PTree where
  | empty
  | node (ppid : Nat) (name : String) (ppids : PTree) (memory : ℚ)
  deriving Repr, DecidableEq

/-- `get_parent_tree(proc)` over an abstract OS parent oracle `os`.  The
`Nat` argument is call-stack fuel; `none` means the recursion has not
returned within that depth.  The Python source has no depth bound and no
visited set, so on a parent cycle no fuel suffices
(`get_parent_tree_diverges_on_cycle`). -/
def get_parent_tree (os : Nat → ParentQuery) : Nat → Nat → Option PTree
  | 0, _ => none
  | fuel + 1, p =>
    match os p with
    | .noParent => some .empty
    | .fails => some .empty
    | .parentIs q nm mem =>
      match get_parent_tree os fuel q with
      | none => none
      | some t => some (.node q nm t (round2 mem))

/-! ## Sparkline (`text_sparkline`) -/

/-- `bars = "▁▂▃▄▅▆▇█"`. -/
def barsGlyphs : List Char := ['▁', '▂', '▃', '▄', '▅', '▆', '▇', '█']

/-- Python `int(q)`: truncation toward zero. -/
def pyTrunc (q : ℚ) : Int :=
  if 0 ≤ q then ⌊q⌋ else ⌈q⌉

/-- Python sequence indexing `l[i]`: negative indices count from the end,
out-of-range raises `IndexError` (modelled `none`). -/
def pyIndex (l : List Char) (i : Int) : Option Char :=
  if 0 ≤ i then l.get? i.toNat
  else if (-i).toNat ≤ l.length then l.get? (l.length - (-i).toNat)
  else none

/-- `text_sparkline(memory_percent)`: `index = int(memory_percent * 7 / 100)`
then `bars[index]`.  The source has no clamping; `none` is Python's
`IndexError`. -/
def text_sparkline (memory_percent : ℚ) : Option Char :=
  pyIndex barsGlyphs (pyTrunc (memory_percent * 7 / 100))

/-- Reachability along the children index: `Reaches cmap a b` holds when `b`
is `a` or can be reached from `a` by repeatedly stepping into an indexed
child list.  Every pid the view displays is reachable from a root in this
sense. -/
inductive Reaches (cmap : List (Nat × List Nat)) : Nat → Nat → Prop where
  | refl (a : Nat) : Reaches cmap a a
  | step {a b c : Nat} : Reaches cmap a b → c ∈ (lookupA cmap b).getD [] →
      Reaches cmap a c

/-- The mathematical totals the aggregator is meant to compute, written as
the spec writes them: own fraction plus the totals of the indexed children
present in the snapshot, rounded to two decimals at each node.  Fuel-indexed
so it is total; on an acyclic index the value is fuel-independent once the
fuel exceeds the pid's rank (`totalSpecF_stable`). -/
def totalSpecF (procs : List (Nat × ProcRec)) (cmap : List (Nat × List Nat)) :
    Nat → Nat → ℚ
  | 0, _ => 0
  | fuel + 1, pid =>
    round2 ((recOf procs pid).memory +
      ((((lookupA cmap pid).getD []).filter (fun c => (lookupA procs c).isSome)).map
        (totalSpecF procs cmap fuel)).sum)

/-! ## Concrete data used by witnesses and counterexamples -/

/-- A well-behaved three-process snapshot: 1 is a root with child 2, and 3's
parent 99 is outside the snapshot. -/
def exRawBase : List RawProc :=
  [ { pid := 1, ppid := 0, name := some "init", username := some "root",
      memory := 1, fails := false },
    { pid := 2, ppid := 1, name := some "sh", username := some "root",
      memory := 2, fails := false },
    { pid := 3, ppid := 99, name := none, username := none,
      memory := 3, fails := false } ]

/-- The spec's synthetic cycle: pid 5's recorded parent is pid 7, pid 7's
child list includes pid 5, and pid 5 (incorrectly) lists pid 7 as its own
child. -/
def exCycleProcs : List (Nat × ProcRec) :=
  [ (5, { pid := 5, ppid := 7, name := "a", username := "u", memory := 2 }),
    (7, { pid := 7, ppid := 5, name := "b", username := "u", memory := 3 }) ]

/-- The children index of the synthetic cycle, with an additional dangling
child reference (pid 99 is indexed under 7 but absent from the snapshot). -/
def exCycleCmap : List (Nat × List Nat) :=
  [ (7, [5, 99]), (5, [7]) ]

/-- An OS parent oracle that reports every process's parent as pid 0 — pid 0
included, so the reported parent chain is a cycle. -/
def cyclicOS : Nat → ParentQuery :=
  fun _ => ParentQuery.parentIs 0 "sys" 0

/-- A snapshot holding one genuine root (pid 1) and a two-cycle (pids 5 and
7 list each other as parent), with the children index `list_process` would
derive from those parent fields. -/
def exC10procs : List (Nat × ProcRec) :=
  [ (1, { pid := 1, ppid := 0, name := "init", username := "u", memory := 1 }),
    (5, { pid := 5, ppid := 7, name := "a", username := "u", memory := 2 }),
    (7, { pid := 7, ppid := 5, name := "b", username := "u", memory := 3 }) ]

/-- The children index matching `exC10procs`. -/
def exC10cmap : List (Nat × List Nat) :=
  [ (0, [1]), (7, [5]), (5, [7]) ]

/-- Two processes whose names are equal case-insensitively but not equal as
written: a tie under the `name` sort key. -/
def exC9procs : List (Nat × ProcRec) :=
  [ (1, { pid := 1, ppid := 0, name := "Xa", username := "u", memory := 1 }),
    (2, { pid := 2, ppid := 0, name := "xA", username := "u", memory := 2 }) ]

/-- A raw snapshot in which exactly one process (pid 4) fails its attribute
reads. -/
def exRawC8 : List RawProc :=
  [ { pid := 1, ppid := 0, name := some "init", username := some "root",
      memory := 1, fails := false },
    { pid := 4, ppid := 1, name := some "ghost", username := some "root",
      memory := 9, fails := true },
    { pid := 3, ppid := 1, name := some "sh", username := some "root",
      memory := 2, fails := false } ]

/-! ## Invariant predicates used in theorem statements -/

/-- Every stored memory fraction is nonnegative and already rounded to two
decimals — true of every snapshot `list_process` builds, since it stores
`round(proc.memory_percent(), 2)` and `memory_percent` is nonnegative. -/
def ProcsGood (procs : List (Nat × ProcRec)) : Prop :=
  ∀ e ∈ procs, 0 ≤ e.2.memory ∧ round2 e.2.memory = e.2.memory

/-- Every memo entry belongs to a snapshot pid and is at least that pid's
own stored fraction (and nonnegative): the shape of the aggregator's
invariant for the total-mass lower bound. -/
def MemoGe (procs : List (Nat × ProcRec)) (memo : List (Nat × ℚ)) : Prop :=
  ∀ e ∈ memo, (lookupA procs e.1).isSome ∧ (recOf procs e.1).memory ≤ e.2 ∧ 0 ≤ e.2

/-- `rank` witnesses acyclicity of the parent/child references: every indexed
child edge between snapshot pids strictly decreases it. -/
def RankOK (procs : List (Nat × ProcRec)) (cmap : List (Nat × List Nat))
    (rank : Nat → Nat) : Prop :=
  ∀ p ∈ keysA procs, ∀ c ∈ (lookupA cmap p).getD [], c ∈ keysA procs → rank c < rank p

/-- Every memo entry is a snapshot pid holding exactly its spec-level total. -/
def MemoCoherent (procs : List (Nat × ProcRec)) (cmap : List (Nat × List Nat))
    (rank : Nat → Nat) (memo : List (Nat × ℚ)) : Prop :=
  ∀ e ∈ memo, e.1 ∈ keysA procs ∧ e.2 = totalSpecF procs cmap (rank e.1 + 1) e.1

/-- A set of snapshot pids each of whose recorded parents is again in the
set: the member set of a parent cycle living entirely inside the snapshot. -/
def ParentClosed (procs : List (Nat × ProcRec)) (S : List Nat) : Prop :=
  ∀ s ∈ S, s ∈ keysA procs ∧ (recOf procs s).ppid ∈ S

/-! ## Basic lemmas: association-list lookup and rounding -/

section Theorems

attribute [local semireducible] Rat.add Rat.mul Rat.sub Rat.inv

theorem lookupA_isSome_iff {α : Type} (l : List (Nat × α)) (k : Nat) :
    (lookupA l k).isSome ↔ k ∈ keysA l := by
  induction l with
  | nil => simp [lookupA, keysA]
  | cons e rest ih =>
    obtain ⟨k1, v1⟩ := e
    by_cases h : k1 = k
    · subst h
      simp [lookupA, keysA]
    · simp only [lookupA, keysA, List.map_cons, List.mem_cons]
      rw [if_neg h]
      rw [keysA] at ih
      rw [ih]
      constructor
      · exact fun hm => Or.inr hm
      · rintro (hk | hm)
        · exact absurd hk.symm h
        · exact hm

theorem lookupA_eq_none_iff {α : Type} (l : List (Nat × α)) (k : Nat) :
    lookupA l k = none ↔ k ∉ keysA l := by
  rw [← lookupA_isSome_iff, Option.isSome_iff_exists]
  constructor
  · rintro h ⟨v, hv⟩
    rw [h] at hv
    exact Option.noConfusion hv
  · intro h
    cases hl : lookupA l k with
    | none => rfl
    | some v => exact absurd ⟨v, hl⟩ h

theorem lookupA_mem {α : Type} {l : List (Nat × α)} {k : Nat} {v : α}
    (h : lookupA l k = some v) : (k, v) ∈ l := by
  induction l with
  | nil => exact Option.noConfusion h
  | cons e rest ih =>
    obtain ⟨k1, v1⟩ := e
    by_cases hk : k1 = k
    · subst hk
      rw [lookupA, if_pos rfl] at h
      obtain rfl := Option.some.inj h
      exact List.mem_cons_self _ _
    · rw [lookupA, if_neg hk] at h
      exact List.mem_cons_of_mem _ (ih h)

theorem mem_keysA_of_lookupA {α : Type} {l : List (Nat × α)} {k : Nat} {v : α}
    (h : lookupA l k = some v) : k ∈ keysA l := by
  rw [← lookupA_isSome_iff, h]
  rfl

theorem ratFloor_eq_floor (q : ℚ) : Rat.floor q = ⌊q⌋ := by
  rw [Rat.floor_def', Rat.floor_def]

theorem round2_eq_round (q : ℚ) : round2 q = ((round (q * 100) : ℤ) : ℚ) / 100 := by
  rw [round2, ratFloor_eq_floor, round_eq]

theorem abs_round2_sub_le (q : ℚ) : |round2 q - q| ≤ 1 / 200 := by
  rw [round2_eq_round]
  have h := abs_sub_round (q * 100)
  rw [abs_sub_comm] at h
  have he : ((round (q * 100) : ℤ) : ℚ) / 100 - q = (((round (q * 100) : ℤ) : ℚ) - q * 100) / 100 := by
    ring
  rw [he, abs_div]
  have h100 : |(100 : ℚ)| = 100 := by norm_num
  rw [h100]
  linarith

theorem round2_mono {p q : ℚ} (h : p ≤ q) : round2 p ≤ round2 q := by
  rw [round2_eq_round, round2_eq_round]
  have hr : round (p * 100) ≤ round (q * 100) := by
    rw [round_eq, round_eq]
    exact Int.floor_le_floor (by linarith)
  have : ((round (p * 100) : ℤ) : ℚ) ≤ ((round (q * 100) : ℤ) : ℚ) := Int.cast_le.mpr hr
  linarith

theorem round2_intMul (n : ℤ) : round2 ((n : ℚ) / 100) = (n : ℚ) / 100 := by
  rw [round2_eq_round]
  have : ((n : ℚ) / 100) * 100 = (n : ℚ) := by
    field_simp
  rw [this, round_intCast]

theorem round2_round2 (q : ℚ) : round2 (round2 q) = round2 q := by
  rw [round2_eq_round q]
  exact round2_intMul _

theorem round2_nonneg {q : ℚ} (h : 0 ≤ q) : 0 ≤ round2 q := by
  have h0 : round2 0 = 0 := by
    have : ((0 : ℤ) : ℚ) / 100 = 0 := by norm_num
    simpa [this] using round2_intMul 0
  calc (0 : ℚ) = round2 0 := h0.symm
    _ ≤ round2 q := round2_mono h

/-! ## Aggregator: unfolding equations and structural lemmas -/

theorem compute_zero (procs : List (Nat × ProcRec)) (cmap : List (Nat × List Nat))
    (pid : Nat) (memo : List (Nat × ℚ)) (visited : List Nat) :
    compute_memory_with_children procs cmap 0 pid memo visited = none := rfl

theorem compute_succ (procs : List (Nat × ProcRec)) (cmap : List (Nat × List Nat))
    (fuel : Nat) :
    compute_memory_with_children procs cmap (fuel + 1) =
      computeStep procs cmap (compute_memory_with_children procs cmap fuel) := rfl

/-- A successful `childLoop` run extends the memo without disturbing
existing entries, and never creates an entry for a pid that is on the
current stack, provided the recursive call it is given has both properties. -/
theorem childLoop_basic (procs : List (Nat × ProcRec))
    (recur : Nat → List (Nat × ℚ) → List Nat → Option (ℚ × List (Nat × ℚ)))
    (hrec : ∀ c memo visited r memo', recur c memo visited = some (r, memo') →
      (∀ k v, lookupA memo k = some v → lookupA memo' k = some v) ∧
      (∀ k, k ∈ visited → lookupA memo k = none → lookupA memo' k = none)) :
    ∀ cs memo visited s memo', childLoop procs recur cs memo visited = some (s, memo') →
      (∀ k v, lookupA memo k = some v → lookupA memo' k = some v) ∧
      (∀ k, k ∈ visited → lookupA memo k = none → lookupA memo' k = none) := by
  intro cs
  induction cs with
  | nil =>
    intro memo visited s memo' h
    obtain ⟨rfl, rfl⟩ : s = 0 ∧ memo' = memo := by
      rw [childLoop] at h
      exact ⟨(Prod.mk.inj (Option.some.inj h)).1.symm, (Prod.mk.inj (Option.some.inj h)).2.symm⟩
    exact ⟨fun k v hv => hv, fun k _ hn => hn⟩
  | cons c cs ih =>
    intro memo visited s memo' h
    rw [childLoop] at h
    by_cases hc : (lookupA procs c).isSome
    · rw [if_pos hc] at h
      cases hr : recur c memo visited with
      | none => simp only [hr] at h; exact Option.noConfusion h
      | some p =>
        obtain ⟨v, memo1⟩ := p
        simp only [hr] at h
        cases hl : childLoop procs recur cs memo1 visited with
        | none => simp only [hl] at h; exact Option.noConfusion h
        | some p2 =>
          obtain ⟨s2, memo2⟩ := p2
          simp only [hl] at h
          obtain ⟨-, rfl⟩ := Prod.mk.inj (Option.some.inj h)
          obtain ⟨h1, h2⟩ := hrec c memo visited v memo1 hr
          obtain ⟨h3, h4⟩ := ih memo1 visited s2 memo2 hl
          exact ⟨fun k w hw => h3 k w (h1 k w hw),
                 fun k hk hn => h4 k hk (h2 k hk hn)⟩
    · rw [if_neg hc] at h
      exact ih memo visited s memo' h

/-- A successful aggregator run extends the memo without disturbing existing
entries, and never creates an entry for a pid on the current stack. -/
theorem compute_basic (procs : List (Nat × ProcRec)) (cmap : List (Nat × List Nat)) :
    ∀ fuel pid memo visited r memo',
      compute_memory_with_children procs cmap fuel pid memo visited = some (r, memo') →
      (∀ k v, lookupA memo k = some v → lookupA memo' k = some v) ∧
      (∀ k, k ∈ visited → lookupA memo k = none → lookupA memo' k = none) := by
  intro fuel
  induction fuel with
  | zero => intro pid memo visited r memo' h; exact Option.noConfusion h
  | succ fuel ih =>
    intro pid memo visited r memo' h
    rw [compute_succ, computeStep] at h
    cases hm : lookupA memo pid with
    | some v =>
      simp only [hm] at h
      obtain ⟨-, rfl⟩ := Prod.mk.inj (Option.some.inj h)
      exact ⟨fun k w hw => hw, fun k _ hn => hn⟩
    | none =>
      simp only [hm] at h
      by_cases hv : pid ∈ visited
      · rw [if_pos hv] at h
        obtain ⟨-, rfl⟩ := Prod.mk.inj (Option.some.inj h)
        exact ⟨fun k w hw => hw, fun k _ hn => hn⟩
      · rw [if_neg hv] at h
        cases hp : lookupA procs pid with
        | none => simp only [hp] at h; exact Option.noConfusion h
        | some rec0 =>
          simp only [hp] at h
          cases hl : childLoop procs (compute_memory_with_children procs cmap fuel)
              ((lookupA cmap pid).getD []) memo (pid :: visited) with
          | none => simp only [hl] at h; exact Option.noConfusion h
          | some p =>
            obtain ⟨s, memo1⟩ := p
            simp only [hl] at h
            obtain ⟨-, rfl⟩ := Prod.mk.inj (Option.some.inj h)
            obtain ⟨h1, h2⟩ := childLoop_basic procs _
              (fun c m vis r' m' hc => ih c m vis r' m' hc) _ memo _ s memo1 hl
            constructor
            · intro k w hw
              have hk : k ≠ pid := by
                intro he
                rw [he, hm] at hw
                exact Option.noConfusion hw
              rw [lookupA, if_neg (fun he => hk he.symm)]
              exact h1 k w hw
            · intro k hk hn
              have hkp : k ≠ pid := fun he => hv (he ▸ hk)
              rw [lookupA, if_neg (fun he => hkp he.symm)]
              exact h2 k (List.mem_cons_of_mem _ hk) hn

/-- `childLoop` succeeds when the recursive call succeeds on every child that
passes the `child_pid in processes` guard. -/
theorem childLoop_succeeds (procs : List (Nat × ProcRec))
    (recur : Nat → List (Nat × ℚ) → List Nat → Option (ℚ × List (Nat × ℚ)))
    (visited : List Nat)
    (hrec : ∀ c memo, (lookupA procs c).isSome → (recur c memo visited).isSome) :
    ∀ cs memo, (childLoop procs recur cs memo visited).isSome := by
  intro cs
  induction cs with
  | nil => intro memo; rw [childLoop]; rfl
  | cons c cs ih =>
    intro memo
    rw [childLoop]
    by_cases hc : (lookupA procs c).isSome
    · rw [if_pos hc]
      cases hr : recur c memo visited with
      | none =>
        have := hrec c memo hc
        rw [hr] at this
        exact absurd this (by simp)
      | some p =>
        obtain ⟨v, memo1⟩ := p
        simp only
        cases hl : childLoop procs recur cs memo1 visited with
        | none =>
          have := ih memo1
          rw [hl] at this
          exact absurd this (by simp)
        | some p2 =>
          obtain ⟨s2, memo2⟩ := p2
          simp only [hl]
          rfl
    · rw [if_neg hc]
      exact ih memo

/-- Termination of the aggregator: with fuel exceeding the number of
snapshot pids not yet on the stack, `compute_memory_with_children` returns a
value for every snapshot pid — the defensive memo/visited checks bound the
genuine recursion depth by the number of distinct pids, with no acyclicity
assumption. -/
theorem compute_memory_succeeds (procs : List (Nat × ProcRec))
    (cmap : List (Nat × List Nat)) :
    ∀ fuel pid memo visited, pid ∈ keysA procs →
      ((keysA procs).toFinset \ visited.toFinset).card < fuel →
      (compute_memory_with_children procs cmap fuel pid memo visited).isSome := by
  intro fuel
  induction fuel with
  | zero => intro pid memo visited _ hcard; exact absurd hcard (Nat.not_lt_zero _)
  | succ fuel ih =>
    intro pid memo visited hpid hcard
    rw [compute_succ, computeStep]
    cases hm : lookupA memo pid with
    | some v => rfl
    | none =>
      by_cases hv : pid ∈ visited
      · rw [if_pos hv]; rfl
      · rw [if_neg hv]
        cases hp : lookupA procs pid with
        | none =>
          rw [← lookupA_isSome_iff] at hpid
          rw [hp] at hpid
          exact absurd hpid (by simp)
        | some rec0 =>
          have hmem : pid ∈ (keysA procs).toFinset \ visited.toFinset := by
            rw [Finset.mem_sdiff, List.mem_toFinset, List.mem_toFinset]
            exact ⟨hpid, hv⟩
          have hcard' : ((keysA procs).toFinset \ (pid :: visited).toFinset).card < fuel := by
            have he : (keysA procs).toFinset \ (pid :: visited).toFinset =
                ((keysA procs).toFinset \ visited.toFinset).erase pid := by
              rw [List.toFinset_cons, Finset.sdiff_insert]
            rw [he]
            have h1 := Finset.card_erase_of_mem hmem
            have h2 : ((keysA procs).toFinset \ visited.toFinset).card ≠ 0 :=
              Finset.card_ne_zero_of_mem hmem
            omega
          have hrec : ∀ c memo1, (lookupA procs c).isSome →
              (compute_memory_with_children procs cmap fuel c memo1 (pid :: visited)).isSome := by
            intro c memo1 hc
            rw [lookupA_isSome_iff] at hc
            exact ih c memo1 (pid :: visited) hc hcard'
          have hl := childLoop_succeeds procs _ _ hrec ((lookupA cmap pid).getD []) memo
          cases hlv : childLoop procs (compute_memory_with_children procs cmap fuel)
              ((lookupA cmap pid).getD []) memo (pid :: visited) with
          | none => rw [hlv] at hl; exact absurd hl (by simp)
          | some p => obtain ⟨s, memo1⟩ := p; rfl

/-- `childLoop` keeps the lower-bound memo invariant and returns a
nonnegative contribution sum, given that the recursive call does. -/
theorem childLoop_good (procs : List (Nat × ProcRec))
    (recur : Nat → List (Nat × ℚ) → List Nat → Option (ℚ × List (Nat × ℚ)))
    (hrec : ∀ c memo visited r memo', MemoGe procs memo →
      recur c memo visited = some (r, memo') → 0 ≤ r ∧ MemoGe procs memo') :
    ∀ cs memo visited s memo', MemoGe procs memo →
      childLoop procs recur cs memo visited = some (s, memo') →
      0 ≤ s ∧ MemoGe procs memo' := by
  intro cs
  induction cs with
  | nil =>
    intro memo visited s memo' hge h
    rw [childLoop] at h
    obtain ⟨h1, h2⟩ := Prod.mk.inj (Option.some.inj h)
    exact ⟨h1 ▸ le_refl 0, h2 ▸ hge⟩
  | cons c cs ih =>
    intro memo visited s memo' hge h
    rw [childLoop] at h
    by_cases hc : (lookupA procs c).isSome
    · rw [if_pos hc] at h
      cases hr : recur c memo visited with
      | none => simp only [hr] at h; exact Option.noConfusion h
      | some p =>
        obtain ⟨v, memo1⟩ := p
        simp only [hr] at h
        cases hl : childLoop procs recur cs memo1 visited with
        | none => simp only [hl] at h; exact Option.noConfusion h
        | some p2 =>
          obtain ⟨s2, memo2⟩ := p2
          simp only [hl] at h
          obtain ⟨hs, rfl⟩ := Prod.mk.inj (Option.some.inj h)
          obtain ⟨hv, hge1⟩ := hrec c memo visited v memo1 hge hr
          obtain ⟨hs2, hge2⟩ := ih memo1 visited s2 memo2 hge1 hl
          exact ⟨hs ▸ add_nonneg hv hs2, hge2⟩
    · rw [if_neg hc] at h
      exact ih memo visited s memo' hge h

/-- A successful aggregator call returns a nonnegative value, keeps the
lower-bound memo invariant, and — when the pid is not on the stack — leaves
a memo entry for it that is at least the pid's own stored fraction. -/
theorem compute_good (procs : List (Nat × ProcRec)) (cmap : List (Nat × List Nat))
    (hg : ProcsGood procs) :
    ∀ fuel pid memo visited r memo', MemoGe procs memo →
      compute_memory_with_children procs cmap fuel pid memo visited = some (r, memo') →
      0 ≤ r ∧ MemoGe procs memo' ∧
      (pid ∉ visited → ∃ v, lookupA memo' pid = some v ∧ (recOf procs pid).memory ≤ v) := by
  intro fuel
  induction fuel with
  | zero => intro pid memo visited r memo' _ h; exact Option.noConfusion h
  | succ fuel ih =>
    intro pid memo visited r memo' hge h
    rw [compute_succ, computeStep] at h
    cases hm : lookupA memo pid with
    | some v =>
      simp only [hm] at h
      obtain ⟨h1, rfl⟩ := Prod.mk.inj (Option.some.inj h)
      obtain ⟨-, hle, hnn⟩ := hge (pid, v) (lookupA_mem hm)
      exact ⟨h1 ▸ hnn, hge, fun _ => ⟨v, hm, hle⟩⟩
    | none =>
      simp only [hm] at h
      by_cases hv : pid ∈ visited
      · rw [if_pos hv] at h
        obtain ⟨h1, rfl⟩ := Prod.mk.inj (Option.some.inj h)
        exact ⟨h1 ▸ le_refl 0, hge, fun hnv => absurd hv hnv⟩
      · rw [if_neg hv] at h
        cases hp : lookupA procs pid with
        | none => simp only [hp] at h; exact Option.noConfusion h
        | some rec0 =>
          simp only [hp] at h
          cases hl : childLoop procs (compute_memory_with_children procs cmap fuel)
              ((lookupA cmap pid).getD []) memo (pid :: visited) with
          | none => simp only [hl] at h; exact Option.noConfusion h
          | some p =>
            obtain ⟨s, memo1⟩ := p
            simp only [hl] at h
            obtain ⟨hr, rfl⟩ := Prod.mk.inj (Option.some.inj h)
            have hrec : ∀ c memo2 visited2 r2 memo2', MemoGe procs memo2 →
                compute_memory_with_children procs cmap fuel c memo2 visited2 = some (r2, memo2') →
                0 ≤ r2 ∧ MemoGe procs memo2' := by
              intro c memo2 visited2 r2 memo2' hge2 hc
              obtain ⟨ha, hb, -⟩ := ih c memo2 visited2 r2 memo2' hge2 hc
              exact ⟨ha, hb⟩
            obtain ⟨hs, hge1⟩ := childLoop_good procs _ hrec _ memo _ s memo1 hge hl
            obtain ⟨hm0, hmr⟩ := hg (pid, rec0) (lookupA_mem hp)
            have hrec0 : recOf procs pid = rec0 := by
              rw [recOf, hp]
              rfl
            have hself : rec0.memory ≤ round2 (rec0.memory + s) := by
              calc rec0.memory = round2 rec0.memory := hmr.symm
                _ ≤ round2 (rec0.memory + s) := round2_mono (by linarith)
            refine ⟨hr ▸ le_trans hm0 hself, ?_, ?_⟩
            · intro e he
              rcases List.mem_cons.mp he with he1 | he2
              · subst he1
                refine ⟨?_, ?_, ?_⟩
                · rw [hp]; rfl
                · rw [hrec0]; exact hself
                · exact le_trans hm0 hself
              · exact hge1 e he2
            · intro _
              refine ⟨round2 (rec0.memory + s), ?_, ?_⟩
              · rw [lookupA, if_pos rfl]
              · rw [hrec0]; exact hself

/-- The aggregation loop never disturbs memo entries that already exist. -/
theorem aggFold_ext (procs : List (Nat × ProcRec)) (cmap : List (Nat × List Nat)) :
    ∀ (pids : List Nat) (memo : List (Nat × ℚ)) (k : Nat) (v : ℚ),
      lookupA memo k = some v →
      lookupA (pids.foldl (aggStep procs cmap) memo) k = some v := by
  intro pids
  induction pids with
  | nil => intro memo k v h; exact h
  | cons p ps ih =>
    intro memo k v h
    rw [List.foldl_cons]
    apply ih
    rw [aggStep]
    cases hc : compute_memory_with_children procs cmap (procs.length + 1) p memo [] with
    | none => exact h
    | some pr =>
      obtain ⟨r, memo1⟩ := pr
      exact (compute_basic procs cmap _ p memo [] r memo1 hc).1 k v h

/-- Folding the aggregation step over snapshot pids keeps the lower-bound
invariant and gives every processed pid a memo entry at least its own
fraction. -/
theorem aggFold_ge (procs : List (Nat × ProcRec)) (cmap : List (Nat × List Nat))
    (hg : ProcsGood procs) :
    ∀ (pids : List Nat) (memo : List (Nat × ℚ)), MemoGe procs memo →
      (∀ p ∈ pids, p ∈ keysA procs) →
      MemoGe procs (pids.foldl (aggStep procs cmap) memo) ∧
      ∀ p ∈ pids, ∃ v, lookupA (pids.foldl (aggStep procs cmap) memo) p = some v ∧
        (recOf procs p).memory ≤ v := by
  intro pids
  induction pids with
  | nil =>
    intro memo hge _
    exact ⟨hge, fun p hp => absurd hp (List.not_mem_nil p)⟩
  | cons p ps ih =>
    intro memo hge hmem
    have hpk : p ∈ keysA procs := hmem p (List.mem_cons_self p ps)
    have hcard : ((keysA procs).toFinset \ ([] : List Nat).toFinset).card < procs.length + 1 := by
      have h1 : (keysA procs).toFinset.card ≤ (keysA procs).length := List.toFinset_card_le _
      have h2 : (keysA procs).length = procs.length := List.length_map _ _
      simp only [List.toFinset_nil, Finset.sdiff_empty]
      omega
    have hsome := compute_memory_succeeds procs cmap (procs.length + 1) p memo [] hpk hcard
    rw [List.foldl_cons]
    cases hc : compute_memory_with_children procs cmap (procs.length + 1) p memo [] with
    | none => rw [hc] at hsome; exact absurd hsome (by simp)
    | some pr =>
      obtain ⟨r, memo1⟩ := pr
      obtain ⟨-, hge1, hpid⟩ := compute_good procs cmap hg _ p memo [] r memo1 hge hc
      obtain ⟨v, hvl, hvge⟩ := hpid (List.not_mem_nil p)
      have hstep : aggStep procs cmap memo p = memo1 := by
        rw [aggStep, hc]
      rw [hstep]
      obtain ⟨hgeF, hpsF⟩ := ih memo1 hge1 (fun q hq => hmem q (List.mem_cons_of_mem p hq))
      refine ⟨hgeF, ?_⟩
      intro q hq
      rcases List.mem_cons.mp hq with hq1 | hq2
      · subst hq1
        exact ⟨v, aggFold_ext procs cmap ps memo1 q v hvl, hvge⟩
      · exact hpsF q hq2

/-- Once aggregation has run from the empty memo, every snapshot pid's
stored total is at least its own stored fraction. -/
theorem aggregateAll_ge (procs : List (Nat × ProcRec)) (cmap : List (Nat × List Nat))
    (hg : ProcsGood procs) :
    ∀ pid ∈ keysA procs, ∃ v, lookupA (aggregateAll procs cmap) pid = some v ∧
      (recOf procs pid).memory ≤ v := by
  intro pid hpid
  have h := aggFold_ge procs cmap hg (keysA procs) []
    (fun e he => absurd he (List.not_mem_nil e)) (fun p hp => hp)
  exact h.2 pid hpid

/-- On an acyclic index the fuel-indexed spec total is stable as soon as the
fuel exceeds the pid's rank. -/
theorem totalSpecF_stable (procs : List (Nat × ProcRec)) (cmap : List (Nat × List Nat))
    (rank : Nat → Nat) (hrank : RankOK procs cmap rank) :
    ∀ fuel pid, pid ∈ keysA procs → rank pid < fuel →
      totalSpecF procs cmap fuel pid = totalSpecF procs cmap (rank pid + 1) pid := by
  intro fuel
  induction fuel using Nat.strong_induction_on with
  | _ fuel ih =>
    intro pid hpid hlt
    match fuel, hlt with
    | f + 1, hlt =>
      have hchild : ∀ c ∈ ((lookupA cmap pid).getD []).filter
          (fun c => (lookupA procs c).isSome),
          totalSpecF procs cmap f c = totalSpecF procs cmap (rank pid) c := by
        intro c hc
        obtain ⟨hcm, hcs⟩ := List.mem_filter.mp hc
        have hck : c ∈ keysA procs := (lookupA_isSome_iff procs c).mp hcs
        have hcr : rank c < rank pid := hrank pid hpid c hcm hck
        have h1 : totalSpecF procs cmap f c = totalSpecF procs cmap (rank c + 1) c :=
          ih f (Nat.lt_succ_self f) c hck (by omega)
        have h2 : totalSpecF procs cmap (rank pid) c =
            totalSpecF procs cmap (rank c + 1) c :=
          ih (rank pid) hlt c hck hcr
        rw [h1, h2]
      show totalSpecF procs cmap (f + 1) pid = totalSpecF procs cmap (rank pid + 1) pid
      rw [totalSpecF, totalSpecF]
      rw [List.map_congr_left hchild]

/-- `childLoop` computes exactly the sum of the spec totals of the children
that pass the presence guard, and keeps the coherence invariant, given that
the recursive call does so for pids ranked below everything on the stack. -/
theorem childLoop_coherent (procs : List (Nat × ProcRec)) (cmap : List (Nat × List Nat))
    (rank : Nat → Nat)
    (recur : Nat → List (Nat × ℚ) → List Nat → Option (ℚ × List (Nat × ℚ)))
    (visited : List Nat)
    (hrec : ∀ c memo r memo', MemoCoherent procs cmap rank memo → c ∈ keysA procs →
      (∀ x ∈ visited, rank c < rank x) → recur c memo visited = some (r, memo') →
      r = totalSpecF procs cmap (rank c + 1) c ∧ MemoCoherent procs cmap rank memo') :
    ∀ cs memo s memo', MemoCoherent procs cmap rank memo →
      (∀ c ∈ cs, c ∈ keysA procs → ∀ x ∈ visited, rank c < rank x) →
      childLoop procs recur cs memo visited = some (s, memo') →
      s = ((cs.filter (fun c => (lookupA procs c).isSome)).map
        (fun c => totalSpecF procs cmap (rank c + 1) c)).sum ∧
      MemoCoherent procs cmap rank memo' := by
  intro cs
  induction cs with
  | nil =>
    intro memo s memo' hco _ h
    rw [childLoop] at h
    obtain ⟨h1, h2⟩ := Prod.mk.inj (Option.some.inj h)
    exact ⟨by rw [← h1]; simp, h2 ▸ hco⟩
  | cons c cs ih =>
    intro memo s memo' hco hvis h
    rw [childLoop] at h
    by_cases hc : (lookupA procs c).isSome
    · rw [if_pos hc] at h
      have hck : c ∈ keysA procs := (lookupA_isSome_iff procs c).mp hc
      cases hr : recur c memo visited with
      | none => simp only [hr] at h; exact Option.noConfusion h
      | some p =>
        obtain ⟨v, memo1⟩ := p
        simp only [hr] at h
        cases hl : childLoop procs recur cs memo1 visited with
        | none => simp only [hl] at h; exact Option.noConfusion h
        | some p2 =>
          obtain ⟨s2, memo2⟩ := p2
          simp only [hl] at h
          obtain ⟨hs, rfl⟩ := Prod.mk.inj (Option.some.inj h)
          obtain ⟨hv, hco1⟩ := hrec c memo v memo1 hco hck
            (hvis c (List.mem_cons_self c cs) hck) hr
          obtain ⟨hs2, hco2⟩ := ih memo1 s2 memo2 hco1
            (fun d hd hdk => hvis d (List.mem_cons_of_mem c hd) hdk) hl
          refine ⟨?_, hco2⟩
          rw [← hs, hv, hs2,
            List.filter_cons_of_pos (p := fun c => (lookupA procs c).isSome) hc,
            List.map_cons, List.sum_cons]
    · rw [if_neg hc] at h
      rw [List.filter_cons_of_neg (p := fun c => (lookupA procs c).isSome) hc]
      exact ih memo s memo' hco
        (fun d hd hdk => hvis d (List.mem_cons_of_mem c hd) hdk) h

/-- A successful aggregator call on a snapshot pid ranked below everything
on the stack returns exactly the pid's spec total, records it in the memo,
and keeps the coherence invariant. -/
theorem compute_coherent (procs : List (Nat × ProcRec)) (cmap : List (Nat × List Nat))
    (rank : Nat → Nat) (hrank : RankOK procs cmap rank) :
    ∀ fuel pid memo visited r memo', MemoCoherent procs cmap rank memo →
      pid ∈ keysA procs → (∀ x ∈ visited, rank pid < rank x) →
      compute_memory_with_children procs cmap fuel pid memo visited = some (r, memo') →
      r = totalSpecF procs cmap (rank pid + 1) pid ∧
      MemoCoherent procs cmap rank memo' ∧ lookupA memo' pid = some r := by
  intro fuel
  induction fuel with
  | zero => intro pid memo visited r memo' _ _ _ h; exact Option.noConfusion h
  | succ fuel ih =>
    intro pid memo visited r memo' hco hpid hvis h
    rw [compute_succ, computeStep] at h
    cases hm : lookupA memo pid with
    | some v =>
      simp only [hm] at h
      obtain ⟨h1, rfl⟩ := Prod.mk.inj (Option.some.inj h)
      obtain ⟨-, hv⟩ := hco (pid, v) (lookupA_mem hm)
      exact ⟨h1 ▸ hv, hco, h1 ▸ hm⟩
    | none =>
      simp only [hm] at h
      by_cases hv : pid ∈ visited
      · exact absurd (hvis pid hv) (lt_irrefl _)
      · rw [if_neg hv] at h
        cases hp : lookupA procs pid with
        | none =>
          rw [lookupA_eq_none_iff] at hp
          exact absurd hpid hp
        | some rec0 =>
          simp only [hp] at h
          cases hl : childLoop procs (compute_memory_with_children procs cmap fuel)
              ((lookupA cmap pid).getD []) memo (pid :: visited) with
          | none => simp only [hl] at h; exact Option.noConfusion h
          | some p =>
            obtain ⟨s, memo1⟩ := p
            simp only [hl] at h
            obtain ⟨hr, rfl⟩ := Prod.mk.inj (Option.some.inj h)
            have hrec : ∀ c memo2 r2 memo2', MemoCoherent procs cmap rank memo2 →
                c ∈ keysA procs → (∀ x ∈ pid :: visited, rank c < rank x) →
                compute_memory_with_children procs cmap fuel c memo2 (pid :: visited) =
                  some (r2, memo2') →
                r2 = totalSpecF procs cmap (rank c + 1) c ∧
                MemoCoherent procs cmap rank memo2' := by
              intro c memo2 r2 memo2' hco2 hck hcv hc
              obtain ⟨ha, hb, -⟩ := ih c memo2 (pid :: visited) r2 memo2' hco2 hck hcv hc
              exact ⟨ha, hb⟩
            have hvis' : ∀ c ∈ (lookupA cmap pid).getD [], c ∈ keysA procs →
                ∀ x ∈ pid :: visited, rank c < rank x := by
              intro c hcm hck x hx
              have hcr : rank c < rank pid := hrank pid hpid c hcm hck
              rcases List.mem_cons.mp hx with hx1 | hx2
              · exact hx1 ▸ hcr
              · exact lt_trans hcr (hvis x hx2)
            obtain ⟨hs, hco1⟩ := childLoop_coherent procs cmap rank _ _ hrec _ memo s memo1
              hco hvis' hl
            have hrec0 : recOf procs pid = rec0 := by
              rw [recOf, hp]
              rfl
            have hstab : ∀ c ∈ ((lookupA cmap pid).getD []).filter
                (fun c => (lookupA procs c).isSome),
                totalSpecF procs cmap (rank pid) c =
                  totalSpecF procs cmap (rank c + 1) c := by
              intro c hcf
              obtain ⟨hcm, hcs⟩ := List.mem_filter.mp hcf
              have hck : c ∈ keysA procs := (lookupA_isSome_iff procs c).mp hcs
              exact totalSpecF_stable procs cmap rank hrank (rank pid) c hck
                (hrank pid hpid c hcm hck)
            have htot : totalSpecF procs cmap (rank pid + 1) pid =
                round2 (rec0.memory + s) := by
              rw [totalSpecF, hrec0, List.map_congr_left hstab, hs]
            refine ⟨hr ▸ htot.symm, ?_, ?_⟩
            · intro e he
              rcases List.mem_cons.mp he with he1 | he2
              · subst he1
                exact ⟨hpid, htot.symm⟩
              · exact hco1 e he2
            · rw [lookupA, if_pos rfl]
              exact congrArg some hr

/-- Folding the aggregation loop over snapshot pids keeps coherence and
records each processed pid's spec total. -/
theorem aggFold_coherent (procs : List (Nat × ProcRec)) (cmap : List (Nat × List Nat))
    (rank : Nat → Nat) (hrank : RankOK procs cmap rank) :
    ∀ (pids : List Nat) (memo : List (Nat × ℚ)), MemoCoherent procs cmap rank memo →
      (∀ p ∈ pids, p ∈ keysA procs) →
      MemoCoherent procs cmap rank (pids.foldl (aggStep procs cmap) memo) ∧
      ∀ p ∈ pids, lookupA (pids.foldl (aggStep procs cmap) memo) p =
        some (totalSpecF procs cmap (rank p + 1) p) := by
  intro pids
  induction pids with
  | nil =>
    intro memo hco _
    exact ⟨hco, fun p hp => absurd hp (List.not_mem_nil p)⟩
  | cons p ps ih =>
    intro memo hco hmem
    have hpk : p ∈ keysA procs := hmem p (List.mem_cons_self p ps)
    have hcard : ((keysA procs).toFinset \ ([] : List Nat).toFinset).card < procs.length + 1 := by
      have h1 : (keysA procs).toFinset.card ≤ (keysA procs).length := List.toFinset_card_le _
      have h2 : (keysA procs).length = procs.length := List.length_map _ _
      simp only [List.toFinset_nil, Finset.sdiff_empty]
      omega
    have hsome := compute_memory_succeeds procs cmap (procs.length + 1) p memo [] hpk hcard
    rw [List.foldl_cons]
    cases hc : compute_memory_with_children procs cmap (procs.length + 1) p memo [] with
    | none => rw [hc] at hsome; exact absurd hsome (by simp)
    | some pr =>
      obtain ⟨r, memo1⟩ := pr
      obtain ⟨hr, hco1, hlp⟩ := compute_coherent procs cmap rank hrank _ p memo [] r memo1
        hco hpk (fun x hx => absurd hx (List.not_mem_nil x)) hc
      have hstep : aggStep procs cmap memo p = memo1 := by
        rw [aggStep, hc]
      rw [hstep]
      obtain ⟨hcoF, hpsF⟩ := ih memo1 hco1 (fun q hq => hmem q (List.mem_cons_of_mem p hq))
      refine ⟨hcoF, ?_⟩
      intro q hq
      rcases List.mem_cons.mp hq with hq1 | hq2
      · subst hq1
        exact hr ▸ aggFold_ext procs cmap ps memo1 q r hlp
      · exact hpsF q hq2

/-- On an acyclic index, aggregation stores exactly the spec totals. -/
theorem aggregateAll_coherent (procs : List (Nat × ProcRec)) (cmap : List (Nat × List Nat))
    (rank : Nat → Nat) (hrank : RankOK procs cmap rank) :
    ∀ pid ∈ keysA procs, lookupA (aggregateAll procs cmap) pid =
      some (totalSpecF procs cmap (rank pid + 1) pid) := by
  intro pid hpid
  have h := aggFold_coherent procs cmap rank hrank (keysA procs) []
    (fun e he => absurd he (List.not_mem_nil e)) (fun p hp => hp)
  exact h.2 pid hpid

/-! ## Sorting: strict-order facts and stability of the sibling sorter -/

theorem lexLt_asymm : ∀ a b, lexLt a b = true → lexLt b a = false := by
  intro a
  induction a with
  | nil =>
    intro b h
    cases b with
    | nil => exact absurd h (by rw [lexLt]; simp)
    | cons y ys => rfl
  | cons x xs ih =>
    intro b h
    cases b with
    | nil => rw [lexLt] at h; exact Bool.noConfusion h
    | cons y ys =>
      rw [lexLt] at h ⊢
      by_cases h1 : x < y
      · rw [if_neg (by omega : ¬y < x), if_pos h1]
      · rw [if_neg h1] at h
        by_cases h2 : y < x
        · rw [if_pos h2] at h
          exact absurd h (by simp)
        · rw [if_neg h2] at h
          rw [if_neg h2, if_neg h1]
          exact ih ys h

theorem lexLt_negtrans : ∀ a b c, lexLt a b = false → lexLt b c = false →
    lexLt a c = false := by
  intro a
  induction a with
  | nil =>
    intro b c h1 h2
    cases b with
    | nil =>
      cases c with
      | nil => rw [lexLt]
      | cons z zs => rw [lexLt] at h2; exact Bool.noConfusion h2
    | cons y ys => rw [lexLt] at h1; exact Bool.noConfusion h1
  | cons x xs ih =>
    intro b c h1 h2
    cases c with
    | nil => rfl
    | cons z zs =>
      cases b with
      | nil => rw [lexLt] at h2; exact Bool.noConfusion h2
      | cons y ys =>
        rw [lexLt] at h1 h2 ⊢
        by_cases hxy : x < y
        · rw [if_pos hxy] at h1; exact Bool.noConfusion h1
        · rw [if_neg hxy] at h1
          by_cases hyz : y < z
          · rw [if_pos hyz] at h2; exact Bool.noConfusion h2
          · rw [if_neg hyz] at h2
            rw [if_neg (by omega : ¬x < z)]
            by_cases hzx : z < x
            · rw [if_pos hzx]
            · rw [if_neg hzx]
              have hxz : x = z := by omega
              subst hxz
              have hxy' : y = x := by omega
              subst hxy'
              rw [if_neg hxy] at h1 h2
              exact ih ys zs h1 h2

/-- `insertBy` leaves the existing elements in place: the old list is a
sublist of the result. -/
theorem sublist_insertBy (lt : Nat → Nat → Bool) (x : Nat) :
    ∀ acc : List Nat, acc.Sublist (insertBy lt x acc) := by
  intro acc
  induction acc with
  | nil => exact List.nil_sublist _
  | cons y ys ih =>
    rw [insertBy]
    by_cases h : lt x y = true
    · rw [if_pos h]
      exact List.sublist_cons_self x (y :: ys)
    · rw [if_neg h]
      exact ih.cons₂ y

theorem mem_insertBy_self (lt : Nat → Nat → Bool) (x : Nat) :
    ∀ acc : List Nat, x ∈ insertBy lt x acc := by
  intro acc
  induction acc with
  | nil => rw [insertBy]; exact List.mem_singleton.mpr rfl
  | cons y ys ih =>
    rw [insertBy]
    by_cases h : lt x y = true
    · rw [if_pos h]; exact List.mem_cons_self _ _
    · rw [if_neg h]; exact List.mem_cons_of_mem y ih

theorem mem_of_mem_insertBy (lt : Nat → Nat → Bool) (x : Nat) :
    ∀ acc : List Nat, ∀ w ∈ insertBy lt x acc, w = x ∨ w ∈ acc := by
  intro acc
  induction acc with
  | nil =>
    intro w hw
    rw [insertBy] at hw
    exact Or.inl (List.mem_singleton.mp hw)
  | cons y ys ih =>
    intro w hw
    rw [insertBy] at hw
    by_cases h : lt x y = true
    · rw [if_pos h] at hw
      rcases List.mem_cons.mp hw with hw1 | hw2
      · exact Or.inl hw1
      · exact Or.inr hw2
    · rw [if_neg h] at hw
      rcases List.mem_cons.mp hw with hw1 | hw2
      · exact Or.inr (hw1 ▸ List.mem_cons_self y ys)
      · rcases ih w hw2 with hw3 | hw4
        · exact Or.inl hw3
        · exact Or.inr (List.mem_cons_of_mem y hw4)

/-- `insertBy` preserves sortedness when the comparison is asymmetric and
its negation is transitive. -/
theorem sortedB_insertBy (lt : Nat → Nat → Bool)
    (hasym : ∀ a b, lt a b = true → lt b a = false)
    (hneg : ∀ a b c, lt a b = false → lt b c = false → lt a c = false)
    (x : Nat) :
    ∀ acc : List Nat, acc.Pairwise (fun a b => lt b a = false) →
      (insertBy lt x acc).Pairwise (fun a b => lt b a = false) := by
  have htrans : ∀ a b c, lt a b = true → lt b c = true → lt a c = true := by
    intro a b c hab hbc
    cases hac : lt a c with
    | true => rfl
    | false =>
      have h1 : lt b a = false := hasym a b hab
      have h2 : lt b c = false := hneg b a c h1 hac
      rw [h2] at hbc
      exact Bool.noConfusion hbc
  intro acc
  induction acc with
  | nil =>
    intro _
    rw [insertBy]
    exact List.pairwise_singleton _ x
  | cons y ys ih =>
    intro hp
    obtain ⟨hy, hys⟩ := List.pairwise_cons.mp hp
    rw [insertBy]
    by_cases h : lt x y = true
    · rw [if_pos h]
      refine List.pairwise_cons.mpr ⟨?_, hp⟩
      intro w hw
      rcases List.mem_cons.mp hw with hw1 | hw2
      · exact hw1 ▸ hasym x y h
      · cases hwx : lt w x with
        | false => rfl
        | true =>
          have h2 : lt w y = true := htrans w x y hwx h
          rw [hy w hw2] at h2
          exact Bool.noConfusion h2
    · rw [if_neg h]
      refine List.pairwise_cons.mpr ⟨?_, ih hys⟩
      intro w hw
      rcases mem_of_mem_insertBy lt x ys w hw with hw1 | hw2
      · subst hw1
        exact (Bool.not_eq_true _).mp h
      · exact hy w hw2

/-- Inserting `q` into a sorted list that already holds `p` puts `q` after
`p` whenever the two compare equal. -/
theorem insertBy_after_tie (lt : Nat → Nat → Bool)
    (hneg : ∀ a b c, lt a b = false → lt b c = false → lt a c = false)
    (p q : Nat) (_hpq : lt p q = false) (hqp : lt q p = false) :
    ∀ acc : List Nat, acc.Pairwise (fun a b => lt b a = false) → p ∈ acc →
      [p, q].Sublist (insertBy lt q acc) := by
  intro acc
  induction acc with
  | nil => intro _ hp; exact absurd hp (List.not_mem_nil p)
  | cons y ys ih =>
    intro hsorted hp
    obtain ⟨hy, hys⟩ := List.pairwise_cons.mp hsorted
    rw [insertBy]
    by_cases h : lt q y = true
    · rw [if_pos h]
      rcases List.mem_cons.mp hp with hp1 | hp2
      · rw [← hp1] at h
        rw [h] at hqp
        exact Bool.noConfusion hqp
      · have h1 : lt p y = false := hy p hp2
        have h2 : lt q y = false := hneg q p y hqp h1
        rw [h2] at h
        exact Bool.noConfusion h
    · rw [if_neg h]
      rcases List.mem_cons.mp hp with hp1 | hp2
      · subst hp1
        have hq : q ∈ insertBy lt q ys := mem_insertBy_self lt q ys
        exact (List.singleton_sublist.mpr hq).cons₂ p
      · exact (ih hys hp2).cons y

/-- Stability of the insertion fold: if `p` precedes `q` in the input and
the two compare equal, `p` precedes `q` in the output. -/
theorem foldl_insertBy_stable (lt : Nat → Nat → Bool)
    (hasym : ∀ a b, lt a b = true → lt b a = false)
    (hneg : ∀ a b c, lt a b = false → lt b c = false → lt a c = false)
    (p q : Nat) (hpq : lt p q = false) (hqp : lt q p = false) :
    ∀ (l acc : List Nat), acc.Pairwise (fun a b => lt b a = false) →
      ([p, q].Sublist acc ∨ (p ∈ acc ∧ q ∈ l) ∨ [p, q].Sublist l) →
      [p, q].Sublist (l.foldl (fun a x => insertBy lt x a) acc) := by
  intro l
  induction l with
  | nil =>
    intro acc hsorted hphase
    rcases hphase with h3 | h2 | h1
    · exact h3
    · exact absurd h2.2 (List.not_mem_nil q)
    · have h0 : ([p, q] : List Nat) = [] := List.sublist_nil.mp h1
      exact absurd h0 (by simp)
  | cons x xs ih =>
    intro acc hsorted hphase
    rw [List.foldl_cons]
    have hsorted' : (insertBy lt x acc).Pairwise (fun a b => lt b a = false) :=
      sortedB_insertBy lt hasym hneg x acc hsorted
    rcases hphase with h3 | ⟨hpa, hql⟩ | h1
    · exact ih (insertBy lt x acc) hsorted'
        (Or.inl (h3.trans (sublist_insertBy lt x acc)))
    · by_cases hx : x = q
      · subst hx
        exact ih (insertBy lt x acc) hsorted'
          (Or.inl (insertBy_after_tie lt hneg p x hpq hqp acc hsorted hpa))
      · have hq' : q ∈ xs := by
          rcases List.mem_cons.mp hql with h | h
          · exact absurd h.symm hx
          · exact h
        have hp' : p ∈ insertBy lt x acc :=
          (sublist_insertBy lt x acc).subset hpa
        exact ih (insertBy lt x acc) hsorted' (Or.inr (Or.inl ⟨hp', hq'⟩))
    · cases h1 with
      | cons _ h =>
        exact ih (insertBy lt x acc) hsorted' (Or.inr (Or.inr h))
      | cons₂ _ h =>
        exact ih (insertBy lt p acc)
          (sortedB_insertBy lt hasym hneg p acc hsorted)
          (Or.inr (Or.inl ⟨mem_insertBy_self lt p acc, List.singleton_sublist.mp h⟩))

/-- The sorter comparison is asymmetric under every sort key. -/
theorem viewLt_asymm (mode : SortBy) (procs : List (Nat × ProcRec))
    (totals : List (Nat × ℚ)) :
    ∀ p q, viewLt mode procs totals p q = true → viewLt mode procs totals q p = false := by
  intro p q h
  cases mode with
  | pid =>
    simp only [viewLt, decide_eq_true_eq] at h
    simp only [viewLt, decide_eq_false_iff_not]
    omega
  | alphabet => exact lexLt_asymm _ _ h
  | owner => exact lexLt_asymm _ _ h
  | memory =>
    simp only [viewLt, decide_eq_true_eq] at h
    simp only [viewLt, decide_eq_false_iff_not]
    exact lt_asymm h

/-- The negation of the sorter comparison is transitive under every sort
key. -/
theorem viewLt_negtrans (mode : SortBy) (procs : List (Nat × ProcRec))
    (totals : List (Nat × ℚ)) :
    ∀ a b c, viewLt mode procs totals a b = false → viewLt mode procs totals b c = false →
      viewLt mode procs totals a c = false := by
  intro a b c h1 h2
  cases mode with
  | pid =>
    simp only [viewLt, decide_eq_false_iff_not] at h1 h2 ⊢
    omega
  | alphabet => exact lexLt_negtrans _ _ _ h1 h2
  | owner => exact lexLt_negtrans _ _ _ h1 h2
  | memory =>
    simp only [viewLt, decide_eq_false_iff_not, not_lt] at h1 h2 ⊢
    exact le_trans h1 h2

/-- Anything in the output of the insertion fold is either in the
accumulator or in the input, and conversely. -/
theorem mem_foldl_insertBy (lt : Nat → Nat → Bool) :
    ∀ (l acc : List Nat) (w : Nat),
      (w ∈ l.foldl (fun a x => insertBy lt x a) acc ↔ w ∈ acc ∨ w ∈ l) := by
  intro l
  induction l with
  | nil =>
    intro acc w
    simp
  | cons x xs ih =>
    intro acc w
    rw [List.foldl_cons, ih]
    constructor
    · rintro (hw | hw)
      · rcases mem_of_mem_insertBy lt x acc w hw with hw1 | hw2
        · exact Or.inr (hw1 ▸ List.mem_cons_self x xs)
        · exact Or.inl hw2
      · exact Or.inr (List.mem_cons_of_mem x hw)
    · rintro (hw | hw)
      · exact Or.inl ((sublist_insertBy lt x acc).subset hw)
      · rcases List.mem_cons.mp hw with hw1 | hw2
        · exact Or.inl (hw1 ▸ mem_insertBy_self lt x acc)
        · exact Or.inr hw2

/-- The sibling sorter permutes its input: membership is unchanged. -/
theorem mem_sortSiblings (mode : SortBy) (procs : List (Nat × ProcRec))
    (totals : List (Nat × ℚ)) (l : List Nat) (w : Nat) :
    w ∈ sortSiblings mode procs totals l ↔ w ∈ l := by
  rw [sortSiblings, sortedBy, mem_foldl_insertBy]
  simp

theorem Reaches_trans {cmap : List (Nat × List Nat)} {a b c : Nat}
    (h1 : Reaches cmap a b) (h2 : Reaches cmap b c) : Reaches cmap a c := by
  induction h2 with
  | refl => exact h1
  | step _ hc ih => exact Reaches.step ih hc

/-- Every pid in the subtree `emitRows` builds is reachable from one of the
sibling pids it was given, provided the subtree builder only produces pids
reachable from its argument. -/
theorem emitRows_reaches (procs : List (Nat × ProcRec)) (cmap : List (Nat × List Nat))
    (subtree : Nat → Option (List Nat))
    (hsub : ∀ c rows, subtree c = some rows → ∀ s ∈ rows, Reaches cmap c s) :
    ∀ cs rows, emitRows procs subtree cs = some rows →
      ∀ s ∈ rows, ∃ c ∈ cs, Reaches cmap c s := by
  intro cs
  induction cs with
  | nil =>
    intro rows h s hs
    rw [emitRows] at h
    obtain rfl := Option.some.inj h
    exact absurd hs (List.not_mem_nil s)
  | cons c cs ih =>
    intro rows h s hs
    rw [emitRows] at h
    cases hp : lookupA procs c with
    | none => simp only [hp] at h; exact Option.noConfusion h
    | some rec0 =>
      simp only [hp] at h
      cases hsb : subtree c with
      | none => simp only [hsb] at h; exact Option.noConfusion h
      | some sub =>
        simp only [hsb] at h
        cases hr : emitRows procs subtree cs with
        | none => simp only [hr] at h; exact Option.noConfusion h
        | some rest =>
          simp only [hr] at h
          obtain rfl := Option.some.inj h
          rcases List.mem_cons.mp hs with hs1 | hs2
          · exact ⟨c, List.mem_cons_self c cs, by rw [hs1]; exact Reaches.refl c⟩
          · rcases List.mem_append.mp hs2 with hs3 | hs4
            · exact ⟨c, List.mem_cons_self c cs, hsub c sub hsb s hs3⟩
            · obtain ⟨d, hd, hds⟩ := ih rest hr s hs4
              exact ⟨d, List.mem_cons_of_mem c hd, hds⟩

/-- Every pid `add_children_recursive` emits below `pid` is reachable from
`pid` along the children index. -/
theorem addChildren_reaches (procs : List (Nat × ProcRec)) (cmap : List (Nat × List Nat))
    (mode : SortBy) (totals : List (Nat × ℚ)) :
    ∀ fuel pid rows, add_children_recursive procs cmap mode totals fuel pid = some rows →
      ∀ s ∈ rows, Reaches cmap pid s := by
  intro fuel
  induction fuel with
  | zero =>
    intro pid rows h
    exact Option.noConfusion h
  | succ fuel ih =>
    intro pid rows h s hs
    rw [add_children_recursive] at h
    cases hc : lookupA cmap pid with
    | none =>
      simp only [hc] at h
      obtain rfl := Option.some.inj h
      exact absurd hs (List.not_mem_nil s)
    | some childPids =>
      simp only [hc] at h
      obtain ⟨c, hcm, hcs⟩ := emitRows_reaches procs cmap _
        (fun d rows' hd t ht => ih d rows' hd t ht) _ rows h s hs
      have hc' : c ∈ childPids := (mem_sortSiblings mode procs totals childPids c).mp hcm
      have hedge : c ∈ (lookupA cmap pid).getD [] := by
        rw [hc]
        exact hc'
      exact Reaches_trans (Reaches.step (Reaches.refl pid) hedge) hcs

/-- Every pid in the built forest is reachable from one of the computed
roots. -/
theorem loadTreeRows_reaches (procs : List (Nat × ProcRec)) (cmap : List (Nat × List Nat))
    (mode : SortBy) (totals : List (Nat × ℚ)) (fuel : Nat) (rows : List Nat)
    (h : loadTreeRows procs cmap mode totals fuel = some rows) :
    ∀ s ∈ rows, ∃ r ∈ rootPids procs, Reaches cmap r s := by
  intro s hs
  rw [loadTreeRows] at h
  obtain ⟨c, hcm, hcs⟩ := emitRows_reaches procs cmap _
    (fun d rows' hd t ht => addChildren_reaches procs cmap mode totals fuel d rows' hd t ht)
    _ rows h s hs
  exact ⟨c, (mem_sortSiblings mode procs totals (rootPids procs) c).mp hcm, hcs⟩

/-- Walking the children index from a pid outside a parent-closed set can
never enter the set, when every indexed child's recorded parent is its index
key. -/
theorem Reaches_avoid (procs : List (Nat × ProcRec)) (cmap : List (Nat × List Nat))
    (S : List Nat) (hS : ParentClosed procs S)
    (hpc : ∀ k, ∀ c ∈ (lookupA cmap k).getD [], (recOf procs c).ppid = k)
    {r s : Nat} (hr : r ∉ S) (h : Reaches cmap r s) : s ∉ S := by
  induction h with
  | refl => exact hr
  | step _ hc ih =>
    intro hcS
    obtain ⟨-, hppid⟩ := hS _ hcS
    rw [hpc _ _ hc] at hppid
    exact ih hppid

/-- No member of a parent-closed set of snapshot pids is ever classified as
a root. -/
theorem root_not_in_closed (procs : List (Nat × ProcRec)) (S : List Nat)
    (hS : ParentClosed procs S) :
    ∀ s ∈ S, s ∉ rootPids procs := by
  intro s hs hroot
  obtain ⟨hsk, hppid⟩ := hS s hs
  rw [rootPids, List.mem_filter] at hroot
  obtain ⟨-, hcond⟩ := hroot
  have hmem : (recOf procs s).ppid ∈ keysA procs := (hS _ hppid).1
  rw [Bool.not_eq_true'] at hcond
  rw [← List.elem_iff] at hmem
  rw [List.contains] at hcond
  rw [hcond] at hmem
  exact Bool.noConfusion hmem

/-! ## Snapshot construction: dictionary-update characterizations -/

theorem lookupA_append_some {α : Type} {l : List (Nat × α)} {x : Nat} {w : α}
    (l2 : List (Nat × α)) (h : lookupA l x = some w) :
    lookupA (l ++ l2) x = some w := by
  induction l with
  | nil => exact Option.noConfusion h
  | cons e rest ih =>
    obtain ⟨k1, v1⟩ := e
    rw [lookupA] at h
    rw [List.cons_append, lookupA]
    by_cases hk : k1 = x
    · rw [if_pos hk] at h ⊢
      exact h
    · rw [if_neg hk] at h ⊢
      exact ih h

theorem lookupA_append_none {α : Type} {l : List (Nat × α)} {x : Nat}
    (l2 : List (Nat × α)) (h : lookupA l x = none) :
    lookupA (l ++ l2) x = lookupA l2 x := by
  induction l with
  | nil => rfl
  | cons e rest ih =>
    obtain ⟨k1, v1⟩ := e
    rw [lookupA] at h
    rw [List.cons_append, lookupA]
    by_cases hk : k1 = x
    · rw [if_pos hk] at h
      exact Option.noConfusion h
    · rw [if_neg hk] at h ⊢
      exact ih h

theorem lookupA_map_update {α : Type} (k0 : Nat) (g : α → α) :
    ∀ (l : List (Nat × α)) (k : Nat),
      lookupA (l.map (fun p => if p.1 = k0 then (p.1, g p.2) else p)) k =
        match lookupA l k with
        | none => none
        | some v => some (if k = k0 then g v else v) := by
  intro l
  induction l with
  | nil => intro k; rfl
  | cons e rest ih =>
    intro k
    obtain ⟨k1, v1⟩ := e
    rw [List.map_cons]
    by_cases h1 : k1 = k0
    · rw [if_pos (by exact h1 : (k1, v1).1 = k0)]
      rw [lookupA, lookupA]
      by_cases hk : k1 = k
      · rw [if_pos hk, if_pos hk]
        have hkk : k = k0 := hk ▸ h1
        simp [hkk]
      · rw [if_neg hk, if_neg hk]
        exact ih k
    · rw [if_neg (by exact h1 : ¬(k1, v1).1 = k0)]
      rw [lookupA, lookupA]
      by_cases hk : k1 = k
      · rw [if_pos hk, if_pos hk]
        have hkk : ¬k = k0 := fun he => h1 (hk.trans he)
        simp [hkk]
      · rw [if_neg hk, if_neg hk]
        exact ih k

theorem lookupA_dictSet_self {α : Type} (l : List (Nat × α)) (k : Nat) (v : α) :
    lookupA (dictSet l k v) k = some v := by
  rw [dictSet]
  by_cases h : k ∈ keysA l
  · rw [if_pos h]
    have hs : (lookupA l k).isSome := (lookupA_isSome_iff l k).mpr h
    cases hl : lookupA l k with
    | none => rw [hl] at hs; exact absurd hs (by simp)
    | some w =>
      have hmap := lookupA_map_update k (fun _ => v) l k
      have heq : (fun p : Nat × α => if p.1 = k then (k, v) else p) =
          (fun p : Nat × α => if p.1 = k then (p.1, v) else p) := by
        funext p
        by_cases hp : p.1 = k
        · rw [if_pos hp, if_pos hp, hp]
        · rw [if_neg hp, if_neg hp]
      rw [heq, hmap, hl]
      simp
  · rw [if_neg h]
    have hn : lookupA l k = none := (lookupA_eq_none_iff l k).mpr h
    rw [lookupA_append_none _ hn, lookupA, if_pos rfl]

theorem lookupA_dictSet_other {α : Type} (l : List (Nat × α)) (k : Nat) (v : α)
    (x : Nat) (hx : x ≠ k) : lookupA (dictSet l k v) x = lookupA l x := by
  rw [dictSet]
  by_cases h : k ∈ keysA l
  · rw [if_pos h]
    have heq : (fun p : Nat × α => if p.1 = k then (k, v) else p) =
        (fun p : Nat × α => if p.1 = k then (p.1, v) else p) := by
      funext p
      by_cases hp : p.1 = k
      · rw [if_pos hp, if_pos hp, hp]
      · rw [if_neg hp, if_neg hp]
    rw [heq, lookupA_map_update k (fun _ => v) l x]
    cases hl : lookupA l x with
    | none => rfl
    | some w => simp [hx]
  · rw [if_neg h]
    cases hl : lookupA l x with
    | none =>
      rw [lookupA_append_none _ hl, lookupA]
      rw [if_neg (fun he => hx he.symm)]
      rfl
    | some w => exact lookupA_append_some _ hl

theorem mem_keysA_dictSet {α : Type} (l : List (Nat × α)) (k : Nat) (v : α)
    (x : Nat) : x ∈ keysA (dictSet l k v) ↔ x ∈ keysA l ∨ x = k := by
  by_cases hx : x = k
  · subst hx
    constructor
    · intro _; exact Or.inr rfl
    · intro _
      rw [← lookupA_isSome_iff, lookupA_dictSet_self]
      rfl
  · rw [← lookupA_isSome_iff, lookupA_dictSet_other l k v x hx, lookupA_isSome_iff]
    constructor
    · exact fun h => Or.inl h
    · rintro (h | h)
      · exact h
      · exact absurd h hx

theorem lookupA_cmapAdd (m : List (Nat × List Nat)) (pp pid k : Nat) :
    (lookupA (cmapAdd m pp pid) k).getD [] =
      if k = pp then ((lookupA m pp).getD []) ++ [pid] else (lookupA m k).getD [] := by
  rw [cmapAdd]
  by_cases h : pp ∈ keysA m
  · rw [if_pos h]
    have heq : (fun p : Nat × List Nat => if p.1 = pp then (p.1, p.2 ++ [pid]) else p) =
        (fun p : Nat × List Nat => if p.1 = pp then (p.1, p.2 ++ [pid]) else p) := rfl
    rw [lookupA_map_update pp (fun l0 => l0 ++ [pid]) m k]
    by_cases hk : k = pp
    · subst hk
      rw [if_pos rfl]
      have hs : (lookupA m k).isSome := (lookupA_isSome_iff m k).mpr h
      cases hl : lookupA m k with
      | none => rw [hl] at hs; exact absurd hs (by simp)
      | some l0 => simp
    · rw [if_neg hk]
      cases hl : lookupA m k with
      | none => rfl
      | some l0 => simp [hk]
  · rw [if_neg h]
    by_cases hk : k = pp
    · subst hk
      have hn : lookupA m k = none := (lookupA_eq_none_iff m k).mpr h
      rw [lookupA_append_none _ hn, lookupA, if_pos rfl, hn]
      rw [if_pos rfl]
      rfl
    · rw [if_neg hk]
      cases hl : lookupA m k with
      | none =>
        rw [lookupA_append_none _ hl, lookupA, if_neg (fun he => hk he.symm)]
        simp [hl, lookupA]
      | some l0 =>
        rw [lookupA_append_some _ hl]

/-! ## Snapshot scan: drop-on-failure lemmas -/

theorem bnot_contains_iff (l : List Nat) (x : Nat) :
    (!(l.contains x)) = true ↔ x ∉ l := by
  simp

/-- Failing raw entries do not affect the scan at all: the fold over the raw
snapshot equals the fold over the successful entries only. -/
theorem scan_skips_failures :
    ∀ (raw : List RawProc) (acc : List (Nat × ProcRec) × List (Nat × List Nat)),
      raw.foldl scanStep acc = (raw.filter (fun r => !r.fails)).foldl scanStep acc := by
  intro raw
  induction raw with
  | nil => intro acc; rfl
  | cons r rest ih =>
    intro acc
    rw [List.foldl_cons]
    cases hf : r.fails with
    | true =>
      have hstep : scanStep acc r = acc := by rw [scanStep, hf]; rfl
      have hfil : (r :: rest).filter (fun r => !r.fails) =
          rest.filter (fun r => !r.fails) := by
        rw [List.filter_cons_of_neg]
        rw [hf]
        simp
      rw [hstep, hfil, ih]
    | false =>
      have hfil : (r :: rest).filter (fun r => !r.fails) =
          r :: rest.filter (fun r => !r.fails) := by
        rw [List.filter_cons_of_pos]
        rw [hf]
        rfl
      rw [hfil, List.foldl_cons, ih]

/-- `list_process` is blind to failing raw entries. -/
theorem list_process_skips_failures (raw : List RawProc) :
    list_process raw = list_process (raw.filter (fun r => !r.fails)) := by
  rw [list_process, list_process, buildMaps, buildMaps, scan_skips_failures]

/-- Every child-list member of the extended index was a child-list member
before, or is the pid just appended. -/
theorem mem_cmapAdd (m : List (Nat × List Nat)) (pp pid : Nat) :
    ∀ e ∈ cmapAdd m pp pid, ∀ x ∈ e.2, (∃ e' ∈ m, x ∈ e'.2) ∨ x = pid := by
  intro e he x hx
  rw [cmapAdd] at he
  by_cases h : pp ∈ keysA m
  · rw [if_pos h] at he
    obtain ⟨e', he', hfe⟩ := List.mem_map.mp he
    by_cases hp : e'.1 = pp
    · rw [if_pos hp] at hfe
      rw [← hfe] at hx
      rcases List.mem_append.mp hx with hx1 | hx2
      · exact Or.inl ⟨e', he', hx1⟩
      · exact Or.inr (List.mem_singleton.mp hx2)
    · rw [if_neg hp] at hfe
      exact Or.inl ⟨e', he', hfe ▸ hx⟩
  · rw [if_neg h] at he
    rcases List.mem_append.mp he with he1 | he2
    · exact Or.inl ⟨e, he1, hx⟩
    · obtain rfl := List.mem_singleton.mp he2
      exact Or.inr (List.mem_singleton.mp hx)

/-- A pid all of whose raw observations fail is completely excluded by the
scan: never a key of `processes`, never a member of any child list. -/
theorem scan_excludes_failed :
    ∀ (raw : List RawProc) (acc : List (Nat × ProcRec) × List (Nat × List Nat)) (x : Nat),
      (∀ r ∈ raw, r.pid = x → r.fails = true) →
      x ∉ keysA acc.1 → (∀ e ∈ acc.2, x ∉ e.2) →
      x ∉ keysA (raw.foldl scanStep acc).1 ∧
      ∀ e ∈ (raw.foldl scanStep acc).2, x ∉ e.2 := by
  intro raw
  induction raw with
  | nil => intro acc x _ h1 h2; exact ⟨h1, h2⟩
  | cons r rest ih =>
    intro acc x hall h1 h2
    rw [List.foldl_cons]
    cases hf : r.fails with
    | true =>
      have hstep : scanStep acc r = acc := by rw [scanStep, hf]; rfl
      rw [hstep]
      exact ih acc x (fun r' hr' => hall r' (List.mem_cons_of_mem r hr')) h1 h2
    | false =>
      have hpx : r.pid ≠ x := by
        intro he
        rw [hall r (List.mem_cons_self r rest) he] at hf
        exact Bool.noConfusion hf
      have hstep : scanStep acc r =
          (dictSet acc.1 r.pid (normalizeRaw r), cmapAdd acc.2 r.ppid r.pid) := by
        rw [scanStep, hf]
        rfl
      rw [hstep]
      apply ih _ x (fun r' hr' => hall r' (List.mem_cons_of_mem r hr'))
      · intro hx
        rcases (mem_keysA_dictSet acc.1 r.pid (normalizeRaw r) x).mp hx with hx1 | hx2
        · exact h1 hx1
        · exact hpx hx2.symm
      · intro e he hx
        rcases mem_cmapAdd acc.2 r.ppid r.pid e he x hx with ⟨e', he', hxe⟩ | hx2
        · exact h2 e' he' hxe
        · exact hpx hx2.symm

/-- Scanning further raw entries whose successful pids differ from `p` never
disturbs `p`'s stored record. -/
theorem scan_preserves_lookup :
    ∀ (raw : List RawProc) (acc : List (Nat × ProcRec) × List (Nat × List Nat))
      (p : Nat) (rec0 : ProcRec),
      (∀ r ∈ raw, r.fails = false → r.pid ≠ p) →
      lookupA acc.1 p = some rec0 →
      lookupA (raw.foldl scanStep acc).1 p = some rec0 := by
  intro raw
  induction raw with
  | nil => intro acc p rec0 _ h; exact h
  | cons r rest ih =>
    intro acc p rec0 hall h
    rw [List.foldl_cons]
    cases hf : r.fails with
    | true =>
      have hstep : scanStep acc r = acc := by rw [scanStep, hf]; rfl
      rw [hstep]
      exact ih acc p rec0 (fun r' hr' => hall r' (List.mem_cons_of_mem r hr')) h
    | false =>
      have hstep : scanStep acc r =
          (dictSet acc.1 r.pid (normalizeRaw r), cmapAdd acc.2 r.ppid r.pid) := by
        rw [scanStep, hf]
        rfl
      rw [hstep]
      apply ih _ p rec0 (fun r' hr' => hall r' (List.mem_cons_of_mem r hr'))
      have hne : p ≠ r.pid := fun he => hall r (List.mem_cons_self r rest) hf he.symm
      rw [lookupA_dictSet_other acc.1 r.pid (normalizeRaw r) p hne]
      exact h

/-- Scanning never removes a pid from a child list. -/
theorem scan_preserves_child :
    ∀ (raw : List RawProc) (acc : List (Nat × ProcRec) × List (Nat × List Nat))
      (k x : Nat),
      x ∈ (lookupA acc.2 k).getD [] →
      x ∈ (lookupA (raw.foldl scanStep acc).2 k).getD [] := by
  intro raw
  induction raw with
  | nil => intro acc k x h; exact h
  | cons r rest ih =>
    intro acc k x h
    rw [List.foldl_cons]
    cases hf : r.fails with
    | true =>
      have hstep : scanStep acc r = acc := by rw [scanStep, hf]; rfl
      rw [hstep]
      exact ih acc k x h
    | false =>
      have hstep : scanStep acc r =
          (dictSet acc.1 r.pid (normalizeRaw r), cmapAdd acc.2 r.ppid r.pid) := by
        rw [scanStep, hf]
        rfl
      rw [hstep]
      apply ih
      rw [lookupA_cmapAdd acc.2 r.ppid r.pid k]
      by_cases hk : k = r.ppid
      · rw [if_pos hk]
        exact List.mem_append_left _ (hk ▸ h)
      · rw [if_neg hk]
        exact h

/-- Every successfully-read raw observation ends up in the scanned snapshot:
its normalized record under its pid, and its pid in its parent's child list —
provided no two successful observations share a pid. -/
theorem scan_keeps_successful :
    ∀ (raw : List RawProc) (acc : List (Nat × ProcRec) × List (Nat × List Nat)),
      (raw.filter (fun r => !r.fails)).Pairwise (fun a b => a.pid ≠ b.pid) →
      ∀ r ∈ raw, r.fails = false →
        lookupA (raw.foldl scanStep acc).1 r.pid = some (normalizeRaw r) ∧
        r.pid ∈ (lookupA (raw.foldl scanStep acc).2 r.ppid).getD [] := by
  intro raw
  induction raw with
  | nil => intro acc _ r hr; exact absurd hr (List.not_mem_nil r)
  | cons r0 rest ih =>
    intro acc hnodup r hr hf
    rw [List.foldl_cons]
    cases hf0 : r0.fails with
    | true =>
      have hstep : scanStep acc r0 = acc := by rw [scanStep, hf0]; rfl
      have hfil : (r0 :: rest).filter (fun r => !r.fails) =
          rest.filter (fun r => !r.fails) := by
        rw [List.filter_cons_of_neg]
        rw [hf0]
        simp
      rw [hfil] at hnodup
      rcases List.mem_cons.mp hr with hr1 | hr2
      · rw [hr1, hf0] at hf
        exact Bool.noConfusion hf
      · rw [hstep]
        exact ih acc hnodup r hr2 hf
    | false =>
      have hstep : scanStep acc r0 =
          (dictSet acc.1 r0.pid (normalizeRaw r0), cmapAdd acc.2 r0.ppid r0.pid) := by
        rw [scanStep, hf0]
        rfl
      have hfil : (r0 :: rest).filter (fun r => !r.fails) =
          r0 :: rest.filter (fun r => !r.fails) := by
        rw [List.filter_cons_of_pos]
        rw [hf0]
        rfl
      rw [hfil, List.pairwise_cons] at hnodup
      obtain ⟨hhead, htail⟩ := hnodup
      rw [hstep]
      rcases List.mem_cons.mp hr with hr1 | hr2
      · subst hr1
        constructor
        · apply scan_preserves_lookup rest _ r.pid (normalizeRaw r)
          · intro r' hr' hf' he
            exact hhead r' (List.mem_filter.mpr ⟨hr', by rw [hf']; rfl⟩) he.symm
          · exact lookupA_dictSet_self acc.1 r.pid (normalizeRaw r)
        · apply scan_preserves_child
          rw [lookupA_cmapAdd acc.2 r.ppid r.pid r.ppid, if_pos rfl]
          exact List.mem_append_right _ (List.mem_singleton.mpr rfl)
      · exact ih _ htail r hr2 hf

theorem mem_dictSet {α : Type} (l : List (Nat × α)) (k : Nat) (v : α) :
    ∀ e ∈ dictSet l k v, e ∈ l ∨ e = (k, v) := by
  intro e he
  rw [dictSet] at he
  by_cases h : k ∈ keysA l
  · rw [if_pos h] at he
    obtain ⟨e', he', hfe⟩ := List.mem_map.mp he
    by_cases hp : e'.1 = k
    · rw [if_pos hp] at hfe
      exact Or.inr hfe.symm
    · rw [if_neg hp] at hfe
      exact Or.inl (hfe ▸ he')
  · rw [if_neg h] at he
    rcases List.mem_append.mp he with he1 | he2
    · exact Or.inl he1
    · exact Or.inr (List.mem_singleton.mp he2)

/-- Every record the scan stores carries a nonnegative, already-2-decimal
memory fraction, as long as the raw readings are nonnegative. -/
theorem scan_procs_good :
    ∀ (raw : List RawProc) (acc : List (Nat × ProcRec) × List (Nat × List Nat)),
      (∀ e ∈ acc.1, 0 ≤ e.2.memory ∧ round2 e.2.memory = e.2.memory) →
      (∀ r ∈ raw, 0 ≤ r.memory) →
      ProcsGood (raw.foldl scanStep acc).1 := by
  intro raw
  induction raw with
  | nil => intro acc hacc _; exact hacc
  | cons r rest ih =>
    intro acc hacc hraw
    rw [List.foldl_cons]
    cases hf : r.fails with
    | true =>
      have hstep : scanStep acc r = acc := by rw [scanStep, hf]; rfl
      rw [hstep]
      exact ih acc hacc (fun r' hr' => hraw r' (List.mem_cons_of_mem r hr'))
    | false =>
      have hstep : scanStep acc r =
          (dictSet acc.1 r.pid (normalizeRaw r), cmapAdd acc.2 r.ppid r.pid) := by
        rw [scanStep, hf]
        rfl
      rw [hstep]
      apply ih _ _ (fun r' hr' => hraw r' (List.mem_cons_of_mem r hr'))
      intro e he
      rcases mem_dictSet acc.1 r.pid (normalizeRaw r) e he with he1 | he2
      · exact hacc e he1
      · rw [he2]
        refine ⟨round2_nonneg (hraw r (List.mem_cons_self r rest)), round2_round2 _⟩

/-- Characterization of root classification, used by the C6 claim. -/
theorem rootPids_iff (procs : List (Nat × ProcRec)) (pid : Nat) :
    pid ∈ rootPids procs ↔
      pid ∈ keysA procs ∧ (recOf procs pid).ppid ∉ keysA procs := by
  rw [rootPids, List.mem_filter, bnot_contains_iff]

/-! ## Claim theorems -/

/-- C1 (counterexample): the claim says that after a sort-key change the
rebuilt forest is computed solely from the already-aggregated data and the
new key; in the code, `on_option_list_option_selected` calls `load_tree`,
which calls `list_process()` afresh — so with everything else fixed the
rebuilt forest differs between two different fresh OS snapshots. -/
theorem C1_counterexample :
    (on_option_list_option_selected SortBy.pid "По Памяти" exRawBase).2 ≠
      (on_option_list_option_selected SortBy.pid "По Памяти" []).2 := by
  decide

/-- C1 (amended): selecting a sort option sets the new sort key and calls
`load_tree`, which re-invokes `list_process`: the OS snapshot is re-sampled
and memory re-aggregated, and the resulting forest is computed from that
fresh `list_process` output together with the new SortKey. -/
theorem C1_rebuild_resamples (cur : SortBy) (prompt : String)
    (freshRaw : List RawProc) :
    on_option_list_option_selected cur prompt freshRaw =
      (modeOfPrompt prompt cur,
        loadTreeRows (list_process freshRaw).1 (list_process freshRaw).2.1
          (modeOfPrompt prompt cur) (list_process freshRaw).2.2
          ((list_process freshRaw).1.length + 1)) := rfl

/-- C2: the spec requires the ancestor walk to terminate on an OS-reported
parent cycle via a depth bound or visited set; `get_parent_tree` has
neither, so on a cyclic parent oracle no recursion depth ever produces a
return value — the Python original recurses until the interpreter kills it
with an uncaught `RecursionError`. -/
theorem C2_parent_walk_diverges_on_cycle :
    ∀ fuel start, get_parent_tree cyclicOS fuel start = none := by
  intro fuel
  induction fuel with
  | zero => intro start; rfl
  | succ fuel ih =>
    intro start
    rw [get_parent_tree]
    simp only [cyclicOS, ih 0]

/-- C3: on an acyclic snapshot/index (witnessed by a rank function that
indexed child edges strictly decrease), every snapshot pid's aggregated
total equals its own fraction plus the sum of the stored totals of its
indexed children present in the snapshot (absent children skipped), up to
the 2-decimal rounding applied before memoisation — within 0.01. -/
theorem C3_aggregate_equation (procs : List (Nat × ProcRec))
    (cmap : List (Nat × List Nat)) (rank : Nat → Nat)
    (hrank : RankOK procs cmap rank) (pid : Nat) (hpid : pid ∈ keysA procs) :
    ∃ v, lookupA (aggregateAll procs cmap) pid = some v ∧
      |v - ((recOf procs pid).memory +
        ((((lookupA cmap pid).getD []).filter (fun c => (lookupA procs c).isSome)).map
          (fun c => totalOf (aggregateAll procs cmap) c)).sum)| ≤ 1 / 100 := by
  have hv := aggregateAll_coherent procs cmap rank hrank pid hpid
  refine ⟨totalSpecF procs cmap (rank pid + 1) pid, hv, ?_⟩
  have hsum : ∀ c ∈ ((lookupA cmap pid).getD []).filter
      (fun c => (lookupA procs c).isSome),
      totalSpecF procs cmap (rank pid) c = totalOf (aggregateAll procs cmap) c := by
    intro c hc
    obtain ⟨hcm, hcs⟩ := List.mem_filter.mp hc
    have hck : c ∈ keysA procs := (lookupA_isSome_iff procs c).mp hcs
    have hstab := totalSpecF_stable procs cmap rank hrank (rank pid) c hck
      (hrank pid hpid c hcm hck)
    have hcv := aggregateAll_coherent procs cmap rank hrank c hck
    rw [totalOf, hcv]
    rw [hstab]
    rfl
  have htot : totalSpecF procs cmap (rank pid + 1) pid =
      round2 ((recOf procs pid).memory +
        ((((lookupA cmap pid).getD []).filter (fun c => (lookupA procs c).isSome)).map
          (fun c => totalOf (aggregateAll procs cmap) c)).sum) := by
    rw [totalSpecF, List.map_congr_left hsum]
  rw [htot]
  calc |round2 ((recOf procs pid).memory + _) - _| ≤ 1 / 200 := abs_round2_sub_le _
    _ ≤ 1 / 100 := by norm_num

/-- C3 witness: the equation holds on a concrete acyclic three-process
snapshot. -/
theorem C3_aggregate_equation_witness :
    RankOK (list_process exRawBase).1 (list_process exRawBase).2.1
        (fun p => 100 - p) ∧
    1 ∈ keysA (list_process exRawBase).1 ∧
    ∃ v, lookupA (aggregateAll (list_process exRawBase).1 (list_process exRawBase).2.1)
        1 = some v ∧
      |v - ((recOf (list_process exRawBase).1 1).memory +
        ((((lookupA (list_process exRawBase).2.1 1).getD []).filter
          (fun c => (lookupA (list_process exRawBase).1 c).isSome)).map
          (fun c => totalOf (aggregateAll (list_process exRawBase).1
            (list_process exRawBase).2.1) c)).sum)| ≤ 1 / 100 :=
  ⟨by unfold RankOK; decide, by decide,
    C3_aggregate_equation (list_process exRawBase).1 (list_process exRawBase).2.1
      (fun p => 100 - p) (by unfold RankOK; decide) 1 (by decide)⟩

/-- C4: once aggregation has run over a snapshot (all stored fractions
nonnegative and already 2-decimal-rounded, as `list_process` stores them),
every snapshot pid's memoised total is at least its own stored fraction —
with no acyclicity assumption on the children index, so parent cycles and
dangling child references are covered; and every snapshot `list_process`
builds from nonnegative raw readings satisfies that hypothesis. -/
theorem C4_total_ge_self :
    (∀ (procs : List (Nat × ProcRec)) (cmap : List (Nat × List Nat)),
      ProcsGood procs → ∀ pid ∈ keysA procs,
        ∃ v, lookupA (aggregateAll procs cmap) pid = some v ∧
          (recOf procs pid).memory ≤ v) ∧
    ∀ raw : List RawProc, (∀ r ∈ raw, 0 ≤ r.memory) →
      ProcsGood (list_process raw).1 := by
  constructor
  · exact fun procs cmap hg pid hpid => aggregateAll_ge procs cmap hg pid hpid
  · intro raw hraw
    exact scan_procs_good raw ([], []) (fun e he => absurd he (List.not_mem_nil e)) hraw

/-- C4 witness: on the synthetic cyclic index with a dangling child
reference, pid 5's total is at least its own fraction. -/
theorem C4_total_ge_self_witness :
    ProcsGood exCycleProcs ∧ 5 ∈ keysA exCycleProcs ∧
    ∃ v, lookupA (aggregateAll exCycleProcs exCycleCmap) 5 = some v ∧
      (recOf exCycleProcs 5).memory ≤ v :=
  ⟨by unfold ProcsGood; decide, by decide,
    C4_total_ge_self.1 exCycleProcs exCycleCmap (by unfold ProcsGood; decide) 5 (by decide)⟩

/-- C5: (i) the aggregator returns a value for every snapshot pid whenever
the call-stack fuel exceeds the number of snapshot pids not on the stack —
no acyclicity assumed, so child-list cycles are covered; (ii) a revisit of a
pid already on the stack returns 0 for that branch without recursing or
failing; (iii) on the spec's synthetic 5/7 cycle both pids receive finite
totals no less than their own fractions. -/
theorem C5_cycle_termination :
    (∀ (procs : List (Nat × ProcRec)) (cmap : List (Nat × List Nat))
      (fuel pid : Nat) (memo : List (Nat × ℚ)) (visited : List Nat),
      pid ∈ keysA procs →
      ((keysA procs).toFinset \ visited.toFinset).card < fuel →
      (compute_memory_with_children procs cmap fuel pid memo visited).isSome = true) ∧
    (∀ (procs : List (Nat × ProcRec)) (cmap : List (Nat × List Nat))
      (fuel pid : Nat) (memo : List (Nat × ℚ)) (visited : List Nat),
      lookupA memo pid = none → pid ∈ visited →
      compute_memory_with_children procs cmap (fuel + 1) pid memo visited =
        some (0, memo)) ∧
    (∃ v5 v7, lookupA (aggregateAll exCycleProcs exCycleCmap) 5 = some v5 ∧
      lookupA (aggregateAll exCycleProcs exCycleCmap) 7 = some v7 ∧
      (recOf exCycleProcs 5).memory ≤ v5 ∧ (recOf exCycleProcs 7).memory ≤ v7) := by
  refine ⟨?_, ?_, ?_⟩
  · exact fun procs cmap fuel pid memo visited h1 h2 =>
      compute_memory_succeeds procs cmap fuel pid memo visited h1 h2
  · intro procs cmap fuel pid memo visited hm hv
    rw [compute_succ, computeStep]
    simp only [hm]
    rw [if_pos hv]
  · exact ⟨5, 3, by decide, by decide, by decide, by decide⟩

/-- C5 witness: termination and the zero-contribution revisit on the
concrete cyclic data. -/
theorem C5_cycle_termination_witness :
    (5 ∈ keysA exCycleProcs ∧
      ((keysA exCycleProcs).toFinset \ ([] : List Nat).toFinset).card < 3 ∧
      (compute_memory_with_children exCycleProcs exCycleCmap 3 5 [] []).isSome = true) ∧
    (lookupA ([] : List (Nat × ℚ)) 7 = none ∧ 7 ∈ [7, 5] ∧
      compute_memory_with_children exCycleProcs exCycleCmap 3 7 [] [7, 5] =
        some (0, [])) :=
  ⟨⟨by decide, by decide,
      C5_cycle_termination.1 exCycleProcs exCycleCmap 3 5 [] [] (by decide) (by decide)⟩,
   ⟨rfl, by decide,
      C5_cycle_termination.2.1 exCycleProcs exCycleCmap 2 7 [] [7, 5] rfl (by decide)⟩⟩

/-- C6: a pid is classified as a root exactly when it is a snapshot pid
whose recorded parent pid is not a key of the snapshot mapping; on the
spec's example (parents 0, 1 and 99 with 0 and 99 absent) the roots are
exactly pids 1 and 3, in snapshot order. -/
theorem C6_root_detection :
    (∀ (procs : List (Nat × ProcRec)) (pid : Nat),
      pid ∈ rootPids procs ↔
        pid ∈ keysA procs ∧ (recOf procs pid).ppid ∉ keysA procs) ∧
    rootPids (list_process exRawBase).1 = [1, 3] := by
  constructor
  · exact fun procs pid => rootPids_iff procs pid
  · decide

/-- C7: on the memory-fraction domain [0, 100] the sparkline returns the
glyph at index `floor(value * 7 / 100)` — which already lies in [0, 7], so
clamping is the identity — and always returns a glyph; the three boundary
cases land on the first glyph, index 3, and the last glyph. -/
theorem C7_sparkline_bucketing :
    (∀ v : ℚ, 0 ≤ v → v ≤ 100 →
      text_sparkline v = barsGlyphs.get? (Int.toNat (min 7 (max 0 ⌊v * 7 / 100⌋))) ∧
      (text_sparkline v).isSome = true) ∧
    text_sparkline 0 = some '▁' ∧ text_sparkline 50 = some '▄' ∧
    text_sparkline 100 = some '█' := by
  refine ⟨?_, by decide, by decide, by decide⟩
  intro v h0 h100
  have hq0 : (0 : ℚ) ≤ v * 7 / 100 := by positivity
  have hi0 : (0 : ℤ) ≤ ⌊v * 7 / 100⌋ := Int.floor_nonneg.mpr hq0
  have hq7 : v * 7 / 100 ≤ 7 := by linarith
  have hi7 : ⌊v * 7 / 100⌋ ≤ 7 := by
    calc ⌊v * 7 / 100⌋ ≤ ⌊(7 : ℚ)⌋ := Int.floor_le_floor hq7
      _ = 7 := by norm_num
  have hminmax : min 7 (max 0 ⌊v * 7 / 100⌋) = ⌊v * 7 / 100⌋ := by
    rw [max_eq_right hi0, min_eq_right hi7]
  rw [hminmax, text_sparkline, pyTrunc, if_pos hq0, pyIndex, if_pos hi0]
  constructor
  · rfl
  · have hlt : (⌊v * 7 / 100⌋).toNat < barsGlyphs.length := by
      have : (⌊v * 7 / 100⌋).toNat ≤ 7 := by omega
      simp only [barsGlyphs]
      simp
      omega
    rw [List.get?_eq_get hlt]
    rfl

/-- C7 witness: a concrete in-range fraction produces a glyph. -/
theorem C7_sparkline_bucketing_witness :
    (0 : ℚ) ≤ 25 ∧ (25 : ℚ) ≤ 100 ∧ (text_sparkline 25).isSome = true :=
  ⟨by decide, by decide, (C7_sparkline_bucketing.1 25 (by decide) (by decide)).2⟩

/-- C8: a raw process whose attribute reads fail is silently and completely
excluded — the scan result equals the scan of the successful entries alone,
the failing pid is neither a key of the processes mapping nor a member of
any child list (when no successful observation reuses its pid), and every
successfully-read process lands in the result intact: its normalized record
under its pid and its pid in its parent's child list (when successful pids
are unique, as OS pids are within one snapshot); no error is surfaced. -/
theorem C8_dropped_process_excluded (raw : List RawProc) :
    (list_process raw = list_process (raw.filter (fun r => !r.fails))) ∧
    (∀ x : Nat, (∀ r ∈ raw, r.pid = x → r.fails = true) →
      x ∉ keysA (list_process raw).1 ∧
      ∀ e ∈ (list_process raw).2.1, x ∉ e.2) ∧
    ((raw.filter (fun r => !r.fails)).Pairwise (fun a b => a.pid ≠ b.pid) →
      ∀ r ∈ raw, r.fails = false →
        lookupA (list_process raw).1 r.pid = some (normalizeRaw r) ∧
        r.pid ∈ (lookupA (list_process raw).2.1 r.ppid).getD []) := by
  refine ⟨list_process_skips_failures raw, ?_, ?_⟩
  · intro x hall
    exact scan_excludes_failed raw ([], []) x hall
      (fun h => absurd h (List.not_mem_nil x))
      (fun e he => absurd he (List.not_mem_nil e))
  · intro hnodup r hr hf
    exact scan_keeps_successful raw ([], []) hnodup r hr hf

/-- C8 witness: in a snapshot where exactly pid 4 fails, pid 4 is fully
excluded and the successful pid 3 appears intact. -/
theorem C8_dropped_process_excluded_witness :
    ((∀ r ∈ exRawC8, r.pid = 4 → r.fails = true) ∧
      4 ∉ keysA (list_process exRawC8).1 ∧
      ∀ e ∈ (list_process exRawC8).2.1, 4 ∉ e.2) ∧
    ((exRawC8.filter (fun r => !r.fails)).Pairwise (fun a b => a.pid ≠ b.pid) ∧
      ∃ r3, r3 ∈ exRawC8 ∧ r3.fails = false ∧
        lookupA (list_process exRawC8).1 r3.pid = some (normalizeRaw r3) ∧
        r3.pid ∈ (lookupA (list_process exRawC8).2.1 r3.ppid).getD []) :=
  ⟨⟨by decide, (C8_dropped_process_excluded exRawC8).2.1 4 (by decide)⟩,
   ⟨by decide,
    ⟨{ pid := 3, ppid := 1, name := some "sh", username := some "root",
       memory := 2, fails := false },
      by decide, rfl,
      (C8_dropped_process_excluded exRawC8).2.2 (by decide)
        { pid := 3, ppid := 1, name := some "sh", username := some "root",
          memory := 2, fails := false } (by decide) rfl⟩⟩⟩

/-- C9: the sibling sorter used for the root level and for every child list
is stable for ties under every sort key: if `p` appears before `q` and the
two compare equal both ways under the active key, `p` still appears before
`q` after sorting. -/
theorem C9_sort_stable_ties (mode : SortBy) (procs : List (Nat × ProcRec))
    (totals : List (Nat × ℚ)) (l : List Nat) (p q : Nat)
    (hsub : [p, q].Sublist l)
    (h1 : viewLt mode procs totals p q = false)
    (h2 : viewLt mode procs totals q p = false) :
    [p, q].Sublist (sortSiblings mode procs totals l) := by
  rw [sortSiblings, sortedBy]
  exact foldl_insertBy_stable (viewLt mode procs totals)
    (viewLt_asymm mode procs totals) (viewLt_negtrans mode procs totals)
    p q h1 h2 l [] List.Pairwise.nil (Or.inr (Or.inr hsub))

/-- C9 witness: two processes with case-insensitively identical names keep
their snapshot order under `name` sorting. -/
theorem C9_sort_stable_ties_witness :
    viewLt SortBy.alphabet exC9procs [] 1 2 = false ∧
    viewLt SortBy.alphabet exC9procs [] 2 1 = false ∧
    [1, 2].Sublist (sortSiblings SortBy.alphabet exC9procs [] [1, 2]) :=
  ⟨by decide, by decide,
    C9_sort_stable_ties SortBy.alphabet exC9procs [] [1, 2] 1 2
      (List.Sublist.refl _) (by decide) (by decide)⟩

/-- C10: every pid the built forest displays is reachable from one of the
computed roots along the children index; consequently, when a set of
snapshot pids is parent-closed (a parent cycle living entirely inside the
snapshot) and the index lists each pid under exactly its recorded parent,
none of its members is a root and none appears anywhere in the forest — the
cycle is silently omitted rather than shown with defensive totals. -/
theorem C10_cycle_members_omitted (procs : List (Nat × ProcRec))
    (cmap : List (Nat × List Nat)) (totals : List (Nat × ℚ)) (mode : SortBy)
    (S : List Nat) (hS : ParentClosed procs S)
    (hpc : ∀ e ∈ cmap, ∀ c ∈ e.2, (recOf procs c).ppid = e.1) :
    (∀ s ∈ S, s ∉ rootPids procs) ∧
    ∀ fuel rows, loadTreeRows procs cmap mode totals fuel = some rows →
      ∀ s ∈ rows, (∃ r ∈ rootPids procs, Reaches cmap r s) ∧ s ∉ S := by
  have hpc' : ∀ k, ∀ c ∈ (lookupA cmap k).getD [], (recOf procs c).ppid = k := by
    intro k c hc
    cases hl : lookupA cmap k with
    | none =>
      rw [hl] at hc
      exact absurd hc (List.not_mem_nil c)
    | some l0 =>
      rw [hl] at hc
      exact hpc (k, l0) (lookupA_mem hl) c hc
  refine ⟨root_not_in_closed procs S hS, ?_⟩
  intro fuel rows hrows s hs
  obtain ⟨r, hr, hreach⟩ := loadTreeRows_reaches procs cmap mode totals fuel rows hrows s hs
  refine ⟨⟨r, hr, hreach⟩, ?_⟩
  have hrS : r ∉ S := fun hrS => root_not_in_closed procs S hS r hrS hr
  exact Reaches_avoid procs cmap S hS hpc' hrS hreach

/-- C10 witness: with a genuine root (pid 1) and the 5/7 parent cycle, the
view is built, contains exactly pid 1, and the cycle members are neither
roots nor rows. -/
theorem C10_cycle_members_omitted_witness :
    ParentClosed exC10procs [5, 7] ∧
    (∀ e ∈ exC10cmap, ∀ c ∈ e.2, (recOf exC10procs c).ppid = e.1) ∧
    loadTreeRows exC10procs exC10cmap SortBy.pid [] 4 = some [1] ∧
    (∀ s ∈ [5, 7], s ∉ rootPids exC10procs) ∧
    (∃ r ∈ rootPids exC10procs, Reaches exC10cmap r 1) ∧ 1 ∉ [5, 7] :=
  ⟨by unfold ParentClosed; decide, by decide, by decide,
    (C10_cycle_members_omitted exC10procs exC10cmap [] SortBy.pid [5, 7]
      (by unfold ParentClosed; decide) (by decide)).1,
    ((C10_cycle_members_omitted exC10procs exC10cmap [] SortBy.pid [5, 7]
      (by unfold ParentClosed; decide) (by decide)).2 4 [1] (by decide) 1
      (by decide)).1,
    ((C10_cycle_members_omitted exC10procs exC10cmap [] SortBy.pid [5, 7]
      (by unfold ParentClosed; decide) (by decide)).2 4 [1] (by decide) 1
      (by decide)).2⟩

end Theorems

end ProcForest
